import Mathlib

/-!
Verification of the skynet-js naming/addressing core.

Strings of the TypeScript source are modelled as `List Char`. Each definition
below is translated from a function of the repository (file and function named
in its doc comment); the few primitives the repository takes from external
packages that are not part of the source tree (base64-js, base32-encode,
node-forge, the hash in ./crypto) are modelled from the specification and say
so in their doc comments.
-/

namespace Skynet

/-! ## Identifier codec: base64url and base32 (utils.ts convertSkylinkToBase32) -/

/-- Character class of the base64url skylink matcher `[a-zA-Z0-9_-]`
(utils.ts SKYLINK_MATCHER). -/
def isSkylinkChar (c : Char) : Bool :=
  c.isAlpha || c.isDigit || c = '_' || c = '-'

/-- Character class of the base32 subdomain matcher `[a-z0-9_-]`
(utils.ts SKYLINK_MATCHER_SUBDOMAIN). -/
def isSkylinkB32Char (c : Char) : Bool :=
  ('a' ≤ c && c ≤ 'z') || c.isDigit || c = '_' || c = '-'

/-- 6-bit value of a base64 character, per the base64-js reverse lookup table:
the standard alphabet plus the URL-safe aliases '-' for 62 and '_' for 63.
Modelled from the spec for the base64-js dependency (not part of the source
tree); characters outside the table yield none. -/
def b64Value (c : Char) : Option Nat :=
  if 'A' ≤ c && c ≤ 'Z' then some (c.toNat - 65)
  else if 'a' ≤ c && c ≤ 'z' then some (c.toNat - 97 + 26)
  else if '0' ≤ c && c ≤ '9' then some (c.toNat - 48 + 52)
  else if c = '+' || c = '-' then some 62
  else if c = '/' || c = '_' then some 63
  else none

/-- Decode a list of 6-bit base64 values into bytes, as base64-js toByteArray
does after stripping padding: each full group of four values gives three
bytes; a trailing pair (two padding characters) gives one byte; a trailing
triple (one padding character) gives two bytes. -/
def b64DecodeVals : List Nat → List Nat
  | v0 :: v1 :: v2 :: v3 :: rest =>
      (v0 * 4 + v1 / 16) :: ((v1 % 16) * 16 + v2 / 4) :: ((v2 % 4) * 64 + v3) ::
      b64DecodeVals rest
  | [v0, v1] => [v0 * 4 + v1 / 16]
  | [v0, v1, v2] => [v0 * 4 + v1 / 16, (v1 % 16) * 16 + v2 / 4]
  | _ => []

/-- Model of the padding step of utils.ts convertSkylinkToBase32:
`input.padEnd(input.length + 4 - (input.length % 4), "=")` always appends
`4 - input.length % 4` copies of '='. -/
def padB64 (l : List Char) : List Char :=
  l ++ List.replicate (4 - l.length % 4) '='

/-- Model of base64-js toByteArray for inputs with well-formed padding: length
a multiple of four, at most two trailing '=' and none elsewhere, every other
character in the base64 alphabet. Inputs outside this shape yield none
(base64-js raises or produces garbage bytes there; no call site in the claims
reaches that shape with a valid skylink). -/
def b64ToByteArray (l : List Char) : Option (List Nat) :=
  if l.length % 4 = 0 ∧ (l.drop (l.takeWhile (· ≠ '=')).length).all (· = '=') ∧
      l.length - (l.takeWhile (· ≠ '=')).length ≤ 2 then
    ((l.takeWhile (· ≠ '=')).mapM b64Value).map b64DecodeVals
  else none

/-- RFC 4648 extended-hex base32 alphabet, as used by the base32-encode
dependency under the "RFC4648-HEX" variant. -/
def base32Alphabet : List Char := "0123456789ABCDEFGHIJKLMNOPQRSTUV".data

def b32Char (v : Nat) : Char := base32Alphabet.getD v '?'

/-- Encode bytes into 5-bit base32 values (RFC 4648, most significant bit
first, unpadded, final partial group filled with zero bits), matching the
base32-encode dependency. Modelled from the spec for that dependency. -/
def b32EncodeVals : List Nat → List Nat
  | b0 :: b1 :: b2 :: b3 :: b4 :: rest =>
      b0 / 8 :: ((b0 % 8) * 4 + b1 / 64) :: (b1 / 2 % 32) :: ((b1 % 2) * 16 + b2 / 16) ::
      ((b2 % 16) * 2 + b3 / 128) :: (b3 / 4 % 32) :: ((b3 % 4) * 8 + b4 / 32) :: (b4 % 32) ::
      b32EncodeVals rest
  | [b0] => [b0 / 8, b0 % 8 * 4]
  | [b0, b1] => [b0 / 8, b0 % 8 * 4 + b1 / 64, b1 / 2 % 32, b1 % 2 * 16]
  | [b0, b1, b2] => [b0 / 8, b0 % 8 * 4 + b1 / 64, b1 / 2 % 32, b1 % 2 * 16 + b2 / 16,
      b2 % 16 * 2]
  | [b0, b1, b2, b3] => [b0 / 8, b0 % 8 * 4 + b1 / 64, b1 / 2 % 32, b1 % 2 * 16 + b2 / 16,
      b2 % 16 * 2 + b3 / 128, b3 / 4 % 32, b3 % 4 * 8]
  | [] => []

/-- convertSkylinkToBase32 from utils.ts: pad the input to a multiple of four
characters with '=', decode it as base64, re-encode the bytes with the
unpadded RFC 4648 extended-hex base32 alphabet, and lowercase the result. -/
def convertSkylinkToBase32 (input : List Char) : Option (List Char) :=
  (b64ToByteArray (padB64 input)).map fun decoded =>
    ((b32EncodeVals decoded).map b32Char).map Char.toLower

/-- 5-bit value of an extended-hex base32 character, case-insensitive.
Modelled from the spec: the inverse direction toBase64 of the codec is not in
the source tree; the spec fixes the alphabet (RFC 4648 extended hex, modulo
case). -/
def b32Value (c : Char) : Option Nat :=
  if '0' ≤ c && c ≤ '9' then some (c.toNat - 48)
  else if 'a' ≤ c && c ≤ 'v' then some (c.toNat - 97 + 10)
  else if 'A' ≤ c && c ≤ 'V' then some (c.toNat - 65 + 10)
  else none

/-- Decode 5-bit base32 values into bytes (RFC 4648, most significant bit
first; trailing bits that do not fill a byte are dropped). Modelled from the
spec, inverse of `b32EncodeVals`. -/
def b32DecodeVals : List Nat → List Nat
  | v0 :: v1 :: v2 :: v3 :: v4 :: v5 :: v6 :: v7 :: rest =>
      (v0 * 8 + v1 / 4) :: ((v1 % 4) * 64 + v2 * 2 + v3 / 16) :: ((v3 % 16) * 16 + v4 / 2) ::
      ((v4 % 2) * 128 + v5 * 4 + v6 / 8) :: ((v6 % 8) * 32 + v7) :: b32DecodeVals rest
  | [v0, v1] => [v0 * 8 + v1 / 4]
  | [v0, v1, v2, v3] => [v0 * 8 + v1 / 4, (v1 % 4) * 64 + v2 * 2 + v3 / 16]
  | [v0, v1, v2, v3, v4] => [v0 * 8 + v1 / 4, (v1 % 4) * 64 + v2 * 2 + v3 / 16,
      (v3 % 16) * 16 + v4 / 2]
  | [v0, v1, v2, v3, v4, v5, v6] => [v0 * 8 + v1 / 4, (v1 % 4) * 64 + v2 * 2 + v3 / 16,
      (v3 % 16) * 16 + v4 / 2, (v4 % 2) * 128 + v5 * 4 + v6 / 8]
  | _ => []

/-- URL-safe base64 alphabet used for re-encoding identifiers. -/
def b64Alphabet : List Char :=
  "ABCDEFGHIJKLMNOPQRSTUVWXYZabcdefghijklmnopqrstuvwxyz0123456789-_".data

def b64CharOf (v : Nat) : Char := b64Alphabet.getD v '?'

/-- Encode bytes into 6-bit base64 values (unpadded). Modelled from the spec,
inverse of `b64DecodeVals`. -/
def b64EncodeVals : List Nat → List Nat
  | b0 :: b1 :: b2 :: rest =>
      (b0 / 4) :: ((b0 % 4) * 16 + b1 / 16) :: ((b1 % 16) * 4 + b2 / 64) :: (b2 % 64) ::
      b64EncodeVals rest
  | [b0] => [b0 / 4, b0 % 4 * 16]
  | [b0, b1] => [b0 / 4, b0 % 4 * 16 + b1 / 16, b1 % 16 * 4]
  | [] => []

/-- Modelled from the spec: the base32-to-base64url direction of the codec
("toBase64") is described in the spec but absent from the source tree. Decode
the extended-hex base32 input (case-insensitive) to raw bytes and re-encode
them as an unpadded base64url string. -/
def convertSkylinkToBase64 (input : List Char) : Option (List Char) :=
  (input.mapM b32Value).map fun vals => (b64EncodeVals (b32DecodeVals vals)).map b64CharOf

/-! ### Generic list helpers -/

theorem char_toNat_inj {c d : Char} (h : c.toNat = d.toNat) : c = d :=
  Char.ext (UInt32.ext h)

theorem takeWhile_append_of_all {p : Char → Bool} {a b : List Char}
    (h : ∀ c ∈ a, p c = true) :
    (a ++ b).takeWhile p = a ++ b.takeWhile p := by
  induction a with
  | nil => simp
  | cons c rest ih =>
    have hc : p c = true := h c (by simp)
    simp only [List.cons_append, List.takeWhile_cons, hc, if_true]
    rw [ih fun d hd => h d (by simp [hd])]

theorem mapM_of_map {α β : Type} (f : α → β) (g : β → Option α) (l : List α)
    (h : ∀ x ∈ l, g (f x) = some x) : (l.map f).mapM g = some l := by
  induction l with
  | nil => rfl
  | cons x rest ih =>
    simp only [List.map_cons, List.mapM_cons, h x (by simp), Option.bind_some,
      ih fun y hy => h y (by simp [hy])]
    rfl

/-! ### Alphabet facts, by bounded enumeration -/

theorem b64CharOf_toNat : ∀ v < 64, (b64CharOf v).toNat =
    (if v < 26 then 65 + v else if v < 52 then 71 + v else if v < 62 then v - 4
     else if v = 62 then 45 else 95) := by decide

theorem b64Value_b64CharOf : ∀ v < 64, b64Value (b64CharOf v) = some v := by decide

theorem b32Value_lower_b32Char : ∀ v < 32, b32Value (Char.toLower (b32Char v)) = some v := by
  decide

theorem skylinkChar_ne_pad {c : Char} (h : isSkylinkChar c = true) : c ≠ '=' := by
  intro hc
  subst hc
  simp [isSkylinkChar] at h

/-- A character of the base64url skylink class has a 6-bit value, and the
value maps back to the same character under the URL-safe alphabet. -/
theorem b64Value_of_skylinkChar {c : Char} (h : isSkylinkChar c = true) :
    ∃ v, b64Value c = some v ∧ v < 64 ∧ b64CharOf v = c := by
  have hsplit : ((c.isAlpha = true ∨ c.isDigit = true) ∨ c = '_') ∨ c = '-' := by
    simpa [isSkylinkChar] using h
  have hcases : (65 ≤ c.toNat ∧ c.toNat ≤ 90) ∨ (97 ≤ c.toNat ∧ c.toNat ≤ 122) ∨
      (48 ≤ c.toNat ∧ c.toNat ≤ 57) ∨ c = '_' ∨ c = '-' := by
    rcases hsplit with ((ha | hd) | h1) | h1
    · simp only [Char.isAlpha, Char.isUpper, Char.isLower, Bool.or_eq_true,
        Bool.and_eq_true, decide_eq_true_eq] at ha
      rcases ha with ⟨h1, h2⟩ | ⟨h1, h2⟩
      · exact Or.inl ⟨h1, h2⟩
      · exact Or.inr (Or.inl ⟨h1, h2⟩)
    · simp only [Char.isDigit, Bool.and_eq_true, decide_eq_true_eq] at hd
      exact Or.inr (Or.inr (Or.inl hd))
    · exact Or.inr (Or.inr (Or.inr (Or.inl h1)))
    · exact Or.inr (Or.inr (Or.inr (Or.inr h1)))
  rcases hcases with ⟨h1, h2⟩ | ⟨h1, h2⟩ | ⟨h1, h2⟩ | h1 | h1
  · refine ⟨c.toNat - 65, ?_, by omega, ?_⟩
    · simp only [b64Value]
      have hcond : ('A' ≤ c && c ≤ 'Z') = true := by
        simp only [Bool.and_eq_true, decide_eq_true_eq]
        exact ⟨h1, h2⟩
      simp [hcond]
    · refine char_toNat_inj ?_
      rw [b64CharOf_toNat (c.toNat - 65) (by omega)]
      simp only [show c.toNat - 65 < 26 by omega, if_true]
      omega
  · refine ⟨c.toNat - 97 + 26, ?_, by omega, ?_⟩
    · simp only [b64Value]
      have hc1 : ('A' ≤ c && c ≤ 'Z') = false := by
        simp only [Bool.and_eq_false_iff, decide_eq_false_iff_not]
        right
        show ¬ c.toNat ≤ 90
        omega
      have hc2 : ('a' ≤ c && c ≤ 'z') = true := by
        simp only [Bool.and_eq_true, decide_eq_true_eq]
        exact ⟨h1, h2⟩
      simp [hc1, hc2]
    · refine char_toNat_inj ?_
      rw [b64CharOf_toNat (c.toNat - 97 + 26) (by omega)]
      have : ¬ c.toNat - 97 + 26 < 26 := by omega
      simp only [this, if_false, show c.toNat - 97 + 26 < 52 by omega, if_true]
      omega
  · refine ⟨c.toNat - 48 + 52, ?_, by omega, ?_⟩
    · simp only [b64Value]
      have hc1 : ('A' ≤ c && c ≤ 'Z') = false := by
        simp only [Bool.and_eq_false_iff, decide_eq_false_iff_not]
        left
        show ¬ 65 ≤ c.toNat
        omega
      have hc2 : ('a' ≤ c && c ≤ 'z') = false := by
        simp only [Bool.and_eq_false_iff, decide_eq_false_iff_not]
        left
        show ¬ 97 ≤ c.toNat
        omega
      have hc3 : ('0' ≤ c && c ≤ '9') = true := by
        simp only [Bool.and_eq_true, decide_eq_true_eq]
        exact ⟨h1, h2⟩
      simp [hc1, hc2, hc3]
    · refine char_toNat_inj ?_
      rw [b64CharOf_toNat (c.toNat - 48 + 52) (by omega)]
      have h26 : ¬ c.toNat - 48 + 52 < 26 := by omega
      have h52 : ¬ c.toNat - 48 + 52 < 52 := by omega
      simp only [h26, h52, if_false, show c.toNat - 48 + 52 < 62 by omega, if_true]
      omega
  · subst h1
    exact ⟨63, by decide, by decide, by decide⟩
  · subst h1
    exact ⟨62, by decide, by decide, by decide⟩

/-- mapM over b64Value succeeds on a string of skylink characters and is
inverted by mapping the URL-safe alphabet. -/
theorem mapM_b64Value {x : List Char} (h : ∀ c ∈ x, isSkylinkChar c = true) :
    ∃ vals, x.mapM b64Value = some vals ∧ vals.length = x.length ∧
      (∀ v ∈ vals, v < 64) ∧ vals.map b64CharOf = x := by
  induction x with
  | nil => exact ⟨[], rfl, rfl, by simp, rfl⟩
  | cons c rest ih =>
    obtain ⟨v, hv, hv64, hvc⟩ := b64Value_of_skylinkChar (h c (by simp))
    obtain ⟨vals, h1, h2, h3, h4⟩ := ih fun d hd => h d (by simp [hd])
    refine ⟨v :: vals, ?_, by simp [h2], ?_, by simp [hvc, h4]⟩
    · simp only [List.mapM_cons, hv, h1, Option.bind_some]
      rfl
    · intro w hw
      rcases List.mem_cons.mp hw with h | h
      · exact h ▸ hv64
      · exact h3 w h


/-! ### Value-level roundtrips -/

theorem b64DecodeVals_lt {vals : List Nat} (h : ∀ v ∈ vals, v < 64) :
    ∀ b ∈ b64DecodeVals vals, b < 256 := by
  induction vals using b64DecodeVals.induct with
  | case1 v0 v1 v2 v3 rest ih =>
    have h0 : v0 < 64 := h v0 (by simp)
    have h1 : v1 < 64 := h v1 (by simp)
    have h2 : v2 < 64 := h v2 (by simp)
    have h3 : v3 < 64 := h v3 (by simp)
    intro b hb
    simp only [b64DecodeVals] at hb
    rcases List.mem_cons.mp hb with hb | hb
    · omega
    rcases List.mem_cons.mp hb with hb | hb
    · omega
    rcases List.mem_cons.mp hb with hb | hb
    · omega
    · exact ih (fun v hv => h v (by simp [hv])) b hb
  | case2 v0 v1 =>
    have h0 : v0 < 64 := h v0 (by simp)
    have h1 : v1 < 64 := h v1 (by simp)
    intro b hb
    simp only [b64DecodeVals, List.mem_singleton] at hb
    omega
  | case3 v0 v1 v2 =>
    have h0 : v0 < 64 := h v0 (by simp)
    have h1 : v1 < 64 := h v1 (by simp)
    have h2 : v2 < 64 := h v2 (by simp)
    intro b hb
    simp only [b64DecodeVals] at hb
    rcases List.mem_cons.mp hb with hb | hb
    · omega
    · simp only [List.mem_singleton] at hb
      omega
  | case4 t hx1 hx2 hx3 =>
    intro b hb
    rcases t with _ | ⟨a0, _ | ⟨a1, _ | ⟨a2, _ | ⟨a3, t'⟩⟩⟩⟩
    · simp [b64DecodeVals] at hb
    · simp [b64DecodeVals] at hb
    · exact absurd rfl (hx2 a0 a1)
    · exact absurd rfl (hx3 a0 a1 a2)
    · exact absurd rfl (hx1 a0 a1 a2 a3 t')

theorem getLast?_cons_of_ne {α : Type} (a : α) {l : List α} (h : l ≠ []) :
    (a :: l).getLast? = l.getLast? := by
  cases l with
  | nil => exact absurd rfl h
  | cons b t => simp [List.getLast?_cons_cons]

theorem b32EncodeVals_lt {bytes : List Nat} (h : ∀ b ∈ bytes, b < 256) :
    ∀ v ∈ b32EncodeVals bytes, v < 32 := by
  induction bytes using b32EncodeVals.induct with
  | case1 b0 b1 b2 b3 b4 rest ih =>
    have h0 : b0 < 256 := h b0 (by simp)
    have h1 : b1 < 256 := h b1 (by simp)
    have h2 : b2 < 256 := h b2 (by simp)
    have h3 : b3 < 256 := h b3 (by simp)
    have h4 : b4 < 256 := h b4 (by simp)
    intro v hv
    simp only [b32EncodeVals] at hv
    rcases List.mem_cons.mp hv with hv | hv; · omega
    rcases List.mem_cons.mp hv with hv | hv; · omega
    rcases List.mem_cons.mp hv with hv | hv; · omega
    rcases List.mem_cons.mp hv with hv | hv; · omega
    rcases List.mem_cons.mp hv with hv | hv; · omega
    rcases List.mem_cons.mp hv with hv | hv; · omega
    rcases List.mem_cons.mp hv with hv | hv; · omega
    rcases List.mem_cons.mp hv with hv | hv; · omega
    exact ih (fun b hb => h b (by simp [hb])) v hv
  | case2 b0 =>
    have h0 : b0 < 256 := h b0 (by simp)
    intro v hv
    simp only [b32EncodeVals] at hv
    rcases List.mem_cons.mp hv with hv | hv; · omega
    simp only [List.mem_singleton] at hv
    omega
  | case3 b0 b1 =>
    have h0 : b0 < 256 := h b0 (by simp)
    have h1 : b1 < 256 := h b1 (by simp)
    intro v hv
    simp only [b32EncodeVals] at hv
    rcases List.mem_cons.mp hv with hv | hv; · omega
    rcases List.mem_cons.mp hv with hv | hv; · omega
    rcases List.mem_cons.mp hv with hv | hv; · omega
    simp only [List.mem_singleton] at hv
    omega
  | case4 b0 b1 b2 =>
    have h0 : b0 < 256 := h b0 (by simp)
    have h1 : b1 < 256 := h b1 (by simp)
    have h2 : b2 < 256 := h b2 (by simp)
    intro v hv
    simp only [b32EncodeVals] at hv
    rcases List.mem_cons.mp hv with hv | hv; · omega
    rcases List.mem_cons.mp hv with hv | hv; · omega
    rcases List.mem_cons.mp hv with hv | hv; · omega
    rcases List.mem_cons.mp hv with hv | hv; · omega
    simp only [List.mem_singleton] at hv
    omega
  | case5 b0 b1 b2 b3 =>
    have h0 : b0 < 256 := h b0 (by simp)
    have h1 : b1 < 256 := h b1 (by simp)
    have h2 : b2 < 256 := h b2 (by simp)
    have h3 : b3 < 256 := h b3 (by simp)
    intro v hv
    simp only [b32EncodeVals] at hv
    rcases List.mem_cons.mp hv with hv | hv; · omega
    rcases List.mem_cons.mp hv with hv | hv; · omega
    rcases List.mem_cons.mp hv with hv | hv; · omega
    rcases List.mem_cons.mp hv with hv | hv; · omega
    rcases List.mem_cons.mp hv with hv | hv; · omega
    rcases List.mem_cons.mp hv with hv | hv; · omega
    simp only [List.mem_singleton] at hv
    omega
  | case6 =>
    intro v hv
    simp [b32EncodeVals] at hv

theorem b32DecodeVals_b32EncodeVals {bytes : List Nat} (h : ∀ b ∈ bytes, b < 256) :
    b32DecodeVals (b32EncodeVals bytes) = bytes := by
  induction bytes using b32EncodeVals.induct with
  | case1 b0 b1 b2 b3 b4 rest ih =>
    have h0 : b0 < 256 := h b0 (by simp)
    have h1 : b1 < 256 := h b1 (by simp)
    have h2 : b2 < 256 := h b2 (by simp)
    have h3 : b3 < 256 := h b3 (by simp)
    have h4 : b4 < 256 := h b4 (by simp)
    simp only [b32EncodeVals, b32DecodeVals, List.cons.injEq]
    exact ⟨by omega, by omega, by omega, by omega, by omega,
      ih fun b hb => h b (by simp [hb])⟩
  | case2 b0 =>
    have h0 : b0 < 256 := h b0 (by simp)
    simp only [b32EncodeVals, b32DecodeVals, List.cons.injEq]
    exact ⟨by omega, trivial⟩
  | case3 b0 b1 =>
    have h0 : b0 < 256 := h b0 (by simp)
    have h1 : b1 < 256 := h b1 (by simp)
    simp only [b32EncodeVals, b32DecodeVals, List.cons.injEq]
    exact ⟨by omega, by omega, trivial⟩
  | case4 b0 b1 b2 =>
    have h0 : b0 < 256 := h b0 (by simp)
    have h1 : b1 < 256 := h b1 (by simp)
    have h2 : b2 < 256 := h b2 (by simp)
    simp only [b32EncodeVals, b32DecodeVals, List.cons.injEq]
    exact ⟨by omega, by omega, by omega, trivial⟩
  | case5 b0 b1 b2 b3 =>
    have h0 : b0 < 256 := h b0 (by simp)
    have h1 : b1 < 256 := h b1 (by simp)
    have h2 : b2 < 256 := h b2 (by simp)
    have h3 : b3 < 256 := h b3 (by simp)
    simp only [b32EncodeVals, b32DecodeVals, List.cons.injEq]
    exact ⟨by omega, by omega, by omega, by omega, trivial⟩
  | case6 => rfl

theorem b64EncodeVals_b64DecodeVals {vals : List Nat} (h64 : ∀ v ∈ vals, v < 64)
    (hlen : vals.length % 4 = 2) (hlast : ∀ v, vals.getLast? = some v → v % 16 = 0) :
    b64EncodeVals (b64DecodeVals vals) = vals := by
  induction vals using b64DecodeVals.induct with
  | case1 v0 v1 v2 v3 rest ih =>
    have h0 : v0 < 64 := h64 v0 (by simp)
    have h1 : v1 < 64 := h64 v1 (by simp)
    have h2 : v2 < 64 := h64 v2 (by simp)
    have h3 : v3 < 64 := h64 v3 (by simp)
    have hlen' : rest.length % 4 = 2 := by
      simp only [List.length_cons] at hlen
      omega
    have hne : rest ≠ [] := by
      intro hr
      rw [hr] at hlen'
      simp at hlen'
    have hlast' : ∀ v, rest.getLast? = some v → v % 16 = 0 := by
      intro v hv
      refine hlast v ?_
      rw [getLast?_cons_of_ne v0 (by simp), getLast?_cons_of_ne v1 (by simp),
        getLast?_cons_of_ne v2 (by simp [hne]), getLast?_cons_of_ne v3 hne]
      exact hv
    simp only [b64DecodeVals, b64EncodeVals, List.cons.injEq]
    exact ⟨by omega, by omega, by omega, by omega,
      ih (fun v hv => h64 v (by simp [hv])) hlen' hlast'⟩
  | case2 v0 v1 =>
    have h0 : v0 < 64 := h64 v0 (by simp)
    have h1 : v1 < 64 := h64 v1 (by simp)
    have hv1 : v1 % 16 = 0 := hlast v1 rfl
    simp only [b64DecodeVals, b64EncodeVals, List.cons.injEq]
    exact ⟨by omega, by omega, trivial⟩
  | case3 v0 v1 v2 => simp at hlen
  | case4 t hx1 hx2 hx3 =>
    rcases t with _ | ⟨a0, _ | ⟨a1, _ | ⟨a2, _ | ⟨a3, t'⟩⟩⟩⟩
    · simp at hlen
    · simp at hlen
    · exact absurd rfl (hx2 a0 a1)
    · exact absurd rfl (hx3 a0 a1 a2)
    · exact absurd rfl (hx1 a0 a1 a2 a3 t')

/-! ### Concrete identifiers from the repository test suite -/

def testSkylink : List Char := "XABvi7JtJbQSMAcDwnUnmp2FKDPjg8_tTTFP4BwMSxVdEg".data

def testSkylinkBase32 : List Char :=
  "bg06v2tidkir84hg0s1s4t97jaeoaa1jse1svrad657u070c9calq4g".data

/-- C7: the 46-character identifier "XABvi7JtJbQSMAcDwnUnmp2FKDPjg8_tTTFP4BwMSxVdEg"
converts under convertSkylinkToBase32 to the 55-character lowercase base32 form
"bg06v2tidkir84hg0s1s4t97jaeoaa1jse1svrad657u070c9calq4g". -/
theorem c7_base32_concrete :
    convertSkylinkToBase32 testSkylink = some testSkylinkBase32 ∧
    testSkylink.length = 46 ∧ testSkylinkBase32.length = 55 ∧
    ∀ c ∈ testSkylinkBase32, Char.toLower c = c := by decide

/-- C4 (amended): converting a valid 46-character base64url identifier to
base32 and back is the identity precisely on canonical identifiers, those
whose final character carries a 6-bit value divisible by 16 (the padded
base64 decode drops the last four bits of the final character, so only
identifiers that are genuine encodings of 34-byte payloads survive the
roundtrip). -/
theorem c4_roundtrip (x : List Char) (hlen : x.length = 46)
    (hchars : ∀ c ∈ x, isSkylinkChar c = true)
    (hcanon : (x.getLast?.bind b64Value).getD 0 % 16 = 0) :
    (convertSkylinkToBase32 x).bind convertSkylinkToBase64 = some x := by
  obtain ⟨vals, hm, hvlen, hv64, hmap⟩ := mapM_b64Value hchars
  have hpad : padB64 x = x ++ ['=', '='] := by
    simp [padB64, hlen]
  have htake : (x ++ ['=', '=']).takeWhile (· ≠ '=') = x := by
    rw [takeWhile_append_of_all (fun c hc => by
      simpa using skylinkChar_ne_pad (hchars c hc))]
    simp
  have hbytes : b64ToByteArray (padB64 x) = some (b64DecodeVals vals) := by
    rw [hpad]
    unfold b64ToByteArray
    rw [htake]
    rw [if_pos ⟨by simp [hlen], by rw [List.drop_left]; rfl, by simp [hlen]⟩]
    rw [hm]
    rfl
  have hb256 : ∀ b ∈ b64DecodeVals vals, b < 256 := b64DecodeVals_lt hv64
  have hv32 : ∀ v ∈ b32EncodeVals (b64DecodeVals vals), v < 32 := b32EncodeVals_lt hb256
  have hlen4 : vals.length % 4 = 2 := by rw [hvlen, hlen]
  have hlast : ∀ v, vals.getLast? = some v → v % 16 = 0 := by
    intro v hv
    have hvmem : v ∈ vals := List.mem_of_mem_getLast? hv
    have hv64' : v < 64 := hv64 v hvmem
    have hx : x.getLast? = some (b64CharOf v) := by
      rw [← hmap, List.getLast?_map, hv]
      rfl
    have hbind : x.getLast?.bind b64Value = some v := by
      rw [hx]
      simpa using b64Value_b64CharOf v hv64'
    rw [hbind] at hcanon
    simpa using hcanon
  have hmapm : ((b32EncodeVals (b64DecodeVals vals)).map
      (fun v => Char.toLower (b32Char v))).mapM b32Value =
      some (b32EncodeVals (b64DecodeVals vals)) :=
    mapM_of_map _ _ _ fun v hv => b32Value_lower_b32Char v (hv32 v hv)
  unfold convertSkylinkToBase32
  rw [hbytes]
  simp only [Option.map_some', Option.some_bind]
  unfold convertSkylinkToBase64
  rw [List.map_map]
  have hcomp : (Char.toLower ∘ b32Char) = fun v => Char.toLower (b32Char v) := rfl
  rw [hcomp, hmapm]
  simp only [Option.map_some']
  rw [b32DecodeVals_b32EncodeVals hb256,
    b64EncodeVals_b64DecodeVals hv64 hlen4 hlast, hmap]

/-- C4 witness: the amended roundtrip theorem applied to the repository's
concrete test identifier, whose final character 'g' has value 32. -/
theorem c4_roundtrip_witness :
    testSkylink.length = 46 ∧ (∀ c ∈ testSkylink, isSkylinkChar c = true) ∧
    (testSkylink.getLast?.bind b64Value).getD 0 % 16 = 0 ∧
    (convertSkylinkToBase32 testSkylink).bind convertSkylinkToBase64 = some testSkylink :=
  ⟨by decide, by decide, by decide,
    c4_roundtrip testSkylink (by decide) (by decide) (by decide)⟩

/-- C4 counterexample: the claim as stated fails. The 46-character base64url
identifier consisting of 45 'A's followed by 'B' is a valid identifier in the
sense of the matcher, yet the base32 roundtrip returns 46 'A's: the final
character's low four bits are discarded by the padded base64 decode. -/
theorem c4_counterexample :
    ("AAAAAAAAAAAAAAAAAAAAAAAAAAAAAAAAAAAAAAAAAAAAAB".data).length = 46 ∧
    (∀ c ∈ "AAAAAAAAAAAAAAAAAAAAAAAAAAAAAAAAAAAAAAAAAAAAAB".data,
      isSkylinkChar c = true) ∧
    (convertSkylinkToBase32 "AAAAAAAAAAAAAAAAAAAAAAAAAAAAAAAAAAAAAAAAAAAAAB".data).bind
        convertSkylinkToBase64 =
      some "AAAAAAAAAAAAAAAAAAAAAAAAAAAAAAAAAAAAAAAAAAAAAA".data ∧
    "AAAAAAAAAAAAAAAAAAAAAAAAAAAAAAAAAAAAAAAAAAAAAA".data ≠
      "AAAAAAAAAAAAAAAAAAAAAAAAAAAAAAAAAAAAAAAAAAAAAB".data := by
  refine ⟨by decide, by decide, by decide, by decide⟩

/-! ## String trimming helpers (utils.ts) -/

/-- trimSuffix from utils.ts: repeatedly strip the suffix while the string
ends with it. Every call site passes the one-character suffix "/", so the
helper is specialized to a single character (the source loop would diverge on
an empty suffix and is never invoked with a longer one). -/
def trimSuffix (l : List Char) (c : Char) : List Char :=
  (l.reverse.dropWhile (· == c)).reverse

/-- trimPrefix from utils.ts (renamed trimHead here), with the same
specialization: every call site passes the one-character prefix "/". -/
def trimHead (l : List Char) (c : Char) : List Char :=
  l.dropWhile (· == c)

/-- trimForwardSlash from utils.ts. -/
def trimForwardSlash (l : List Char) : List Char :=
  trimHead (trimSuffix l '/') '/'

/-- uriSkynetPrefix constant "sia:" from utils.ts. -/
def uriSkynetPref : List Char := "sia:".data

/-- uriHandshakePrefix constant "hns:" from utils.ts. -/
def uriHandshakePref : List Char := "hns:".data

/-- trimUriPrefix from utils.ts (renamed trimUriPref here): strip
`prefix + "//"` when the string starts with it, else strip the bare prefix
when present, else return the string unchanged. -/
def trimUriPref (l : List Char) (pre : List Char) : List Char :=
  if (pre ++ ['/', '/']).isPrefixOf l then l.drop (pre.length + 2)
  else if pre.isPrefixOf l then l.drop pre.length
  else l

/-! ## URL decomposition (model of the url-parse dependency) -/

/-- Characters url-parse's protocol pattern allows in a scheme after the
leading letter. Modelled from the spec for the url-parse dependency. -/
def isSchemeChar (c : Char) : Bool :=
  c.isAlpha || c.isDigit || c = '.' || c = '+' || c = '-'

/-- Split a leading "scheme:" off a string, url-parse style: a nonempty run
of scheme characters whose first is a letter, followed by ':'. Returns the
remainder after the colon. -/
def splitScheme (p : List Char) : Option (List Char) :=
  if (p.takeWhile isSchemeChar).isEmpty then none
  else if ((p.takeWhile isSchemeChar).headD ' ').isAlpha then
    match p.drop (p.takeWhile isSchemeChar).length with
    | ':' :: rest => some rest
    | _ => none
  else none

/-- Pathname of url-parse's result, for the address shapes this library feeds
it (modelled from the spec for the url-parse dependency): the characters
before the first '?' or '#' form the non-query part; a "scheme://" or a bare
"//" opening has its authority (up to the next '/') dropped; a "scheme:"
opening without slashes keeps the remainder as the path; anything else is a
relative path taken whole. -/
def urlPathname (l : List Char) : List Char :=
  match splitScheme (l.takeWhile fun c => c ≠ '?' && c ≠ '#') with
  | some ('/' :: '/' :: rest2) => rest2.dropWhile (· ≠ '/')
  | some rest => rest
  | none =>
    match l.takeWhile fun c => c ≠ '?' && c ≠ '#' with
    | '/' :: '/' :: rest2 => rest2.dropWhile (· ≠ '/')
    | p => p

/-- Hostname of url-parse's result for the same address shapes: the authority
of a "scheme://" or bare "//" opening, with userinfo (through the last '@')
and port (from the first ':') removed, lowercased; empty for relative
addresses. Modelled from the spec for the url-parse dependency. -/
def urlHostname (l : List Char) : List Char :=
  match splitScheme (l.takeWhile fun c => c ≠ '?' && c ≠ '#') with
  | some ('/' :: '/' :: rest2) =>
      ((((rest2.takeWhile (· ≠ '/')).reverse.takeWhile (· ≠ '@')).reverse).takeWhile
        (· ≠ ':')).map Char.toLower
  | some _ => []
  | none =>
    match l.takeWhile fun c => c ≠ '?' && c ≠ '#' with
    | '/' :: '/' :: rest2 =>
      ((((rest2.takeWhile (· ≠ '/')).reverse.takeWhile (· ≠ '@')).reverse).takeWhile
        (· ≠ ':')).map Char.toLower
    | _ => []

/-! ## Skylink matchers and parseSkylink (utils.ts) -/

/-- SKYLINK_DIRECT_REGEX from utils.ts: the whole string is exactly 46
characters of the skylink class. -/
def matchDirect (l : List Char) : Option (List Char) :=
  if l.length = 46 ∧ l.all isSkylinkChar then some l else none

/-- Body of SKYLINK_PATHNAME_REGEX after the optional leading slash:
46 skylink-class characters followed by nothing or by a '/'-led path.
Returns (identifier, path) — match positions 1 and 2 of the regex. -/
def matchPathnameTail (l : List Char) : Option (List Char × List Char) :=
  if (l.take 46).length = 46 ∧ (l.take 46).all isSkylinkChar ∧
      ((l.drop 46) = [] ∨ (l.drop 46).headD ' ' = '/') then
    some (l.take 46, l.drop 46)
  else none

/-- SKYLINK_PATHNAME_REGEX from utils.ts `^/?([a-zA-Z0-9_-]{46})((/.*)?)$`:
the optional leading slash is consumed exactly when present, because the
identifier class does not contain '/'. -/
def matchPathname (l : List Char) : Option (List Char × List Char) :=
  match l with
  | '/' :: rest => matchPathnameTail rest
  | _ => matchPathnameTail l

/-- SKYLINK_SUBDOMAIN_REGEX from utils.ts `^([a-z0-9_-]{55})(\..*)?$`. -/
def matchSubdomain (l : List Char) : Option (List Char) :=
  if (l.take 55).length = 55 ∧ (l.take 55).all isSkylinkB32Char ∧
      ((l.drop 55) = [] ∨ (l.drop 55).headD ' ' = '.') then
    some (l.take 55)
  else none

/-- Option bag of parseSkylink (utils.ts), with the JS defaults. -/
structure ParseOpts where
  onlyPath : Bool := false
  includePath : Bool := false
  fromSubdomain : Bool := false
deriving DecidableEq

/-- Result of parseSkylink: a thrown error, the JS null, or a string. -/
inductive ParseOut where
  | thrown : ParseOut
  | nullRes : ParseOut
  | found : List Char → ParseOut
deriving DecidableEq

/-- parseSkylinkBase32 from utils.ts: match the URL's hostname against the
base32 subdomain pattern; in onlyPath mode return the URL's pathname, else
the matched label; null when the hostname does not match. -/
def parseSkylinkBase32 (l : List Char) (opts : ParseOpts) : ParseOut :=
  match matchSubdomain (urlHostname l) with
  | some m => if opts.onlyPath then .found (urlPathname l) else .found m
  | none => .nullRes

/-- Body of parseSkylink after the "sia:" prefix has been stripped (the
source reassigns skylinkStr and the remainder of the function reads only the
reassigned value): direct 46-character match first, then the URL pathname
match with its trailing slashes trimmed. -/
def parseAfterTrim (s : List Char) (opts : ParseOpts) : ParseOut :=
  match matchDirect s with
  | some m => if opts.onlyPath then .found [] else .found m
  | none =>
    match matchPathname (trimSuffix (urlPathname s) '/') with
    | none => .nullRes
    | some (m1, m2) =>
      if opts.includePath then
        .found (trimForwardSlash (trimSuffix (urlPathname s) '/'))
      else if opts.onlyPath then .found (if m2 = ['/'] then [] else m2)
      else .found m1

/-- parseSkylink from utils.ts. The two option-combination errors of the
source are modelled as `ParseOut.thrown`; the non-string input error is
unrepresentable here. -/
def parseSkylink (l : List Char) (opts : ParseOpts) : ParseOut :=
  if opts.includePath && opts.onlyPath then .thrown
  else if opts.includePath && opts.fromSubdomain then .thrown
  else if opts.fromSubdomain then parseSkylinkBase32 l opts
  else parseAfterTrim (trimUriPref l uriSkynetPref) opts

/-! ## Helper lemmas for the parser -/

theorem skylinkChar_ne {c : Char} (h : isSkylinkChar c = true) :
    c ≠ ':' ∧ c ≠ '/' ∧ c ≠ '?' ∧ c ≠ '#' ∧ c ≠ '.' ∧ c ≠ '=' := by
  refine ⟨?_, ?_, ?_, ?_, ?_, ?_⟩ <;> (intro he; subst he; exact absurd h (by decide))

theorem dropWhile_append_of_all {p : Char → Bool} {a b : List Char}
    (h : ∀ c ∈ a, p c = true) :
    (a ++ b).dropWhile p = b.dropWhile p := by
  induction a with
  | nil => simp
  | cons c rest ih =>
    have hc : p c = true := h c (by simp)
    simp only [List.cons_append, List.dropWhile_cons, hc, if_true]
    exact ih fun d hd => h d (by simp [hd])

theorem dropWhile_cons_false {p : Char → Bool} {c : Char} {l : List Char}
    (h : p c = false) : (c :: l).dropWhile p = c :: l := by
  simp [List.dropWhile_cons, h]

theorem takeWhile_cons_false {p : Char → Bool} {c : Char} {l : List Char}
    (h : p c = false) : (c :: l).takeWhile p = [] := by
  simp [List.takeWhile_cons, h]

theorem takeWhile_head_false {p : Char → Bool} {l : List Char}
    (h : l = [] ∨ p (l.headD ' ') = false) : l.takeWhile p = [] := by
  cases l with
  | nil => rfl
  | cons c t =>
    rcases h with h | h
    · exact absurd h (by simp)
    · simpa using takeWhile_cons_false (l := t) h

theorem drop_takeWhile_length (p : Char → Bool) (l : List Char) :
    l.drop (l.takeWhile p).length = l.dropWhile p := by
  nth_rewrite 2 [← List.takeWhile_append_dropWhile (p := p) (l := l)]
  rw [List.drop_left]

theorem dropWhile_cons_of {p : Char → Bool} {l t : List Char} {c : Char}
    (h : l.dropWhile p = c :: t) : c ∈ l ∧ p c = false := by
  induction l with
  | nil => simp at h
  | cons a rest ih =>
    by_cases ha : p a
    · rw [List.dropWhile_cons, if_pos ha] at h
      obtain ⟨hm, hp⟩ := ih h
      exact ⟨by simp [hm], hp⟩
    · rw [List.dropWhile_cons, if_neg ha] at h
      cases h
      exact ⟨by simp, by simpa using ha⟩

theorem trimSuffix_of_getLast {l : List Char} {c : Char} (h : l.getLast? ≠ some c) :
    trimSuffix l c = l := by
  unfold trimSuffix
  rw [← List.head?_reverse] at h
  cases hr : l.reverse with
  | nil => simpa using congrArg List.reverse hr
  | cons a t =>
    rw [hr] at h
    have ha : (a == c) = false := by
      simp only [List.head?_cons] at h
      simp only [beq_eq_false_iff_ne, ne_eq]
      intro he
      exact h (by rw [he])
    rw [dropWhile_cons_false (p := fun x => x == c) ha, ← hr, List.reverse_reverse]

theorem trimHead_of_head {l : List Char} {c : Char}
    (h : l = [] ∨ l.headD ' ' ≠ c) : trimHead l c = l := by
  unfold trimHead
  cases l with
  | nil => rfl
  | cons a t =>
    rcases h with h | h
    · exact absurd h (by simp)
    · refine dropWhile_cons_false ?_
      simp only [List.headD_cons] at h
      simpa using h

/-- Destructure a list of length at least four. -/
theorem exists_four_cons {id : List Char} (h : 4 ≤ id.length) :
    ∃ c0 c1 c2 c3 t, id = c0 :: c1 :: c2 :: c3 :: t := by
  rcases id with _ | ⟨c0, _ | ⟨c1, _ | ⟨c2, _ | ⟨c3, t⟩⟩⟩⟩
  · simp at h
  · simp at h
  · simp at h
  · simp at h
  · exact ⟨c0, c1, c2, c3, t, rfl⟩

theorem dropWhile_append_of_ne_nil {p : Char → Bool} {a b : List Char}
    (h : a.dropWhile p ≠ []) : (a ++ b).dropWhile p = a.dropWhile p ++ b := by
  induction a with
  | nil => exact absurd rfl h
  | cons c rest ih =>
    by_cases hc : p c
    · rw [List.dropWhile_cons, if_pos hc] at h
      simp only [List.cons_append, List.dropWhile_cons, hc, if_true]
      exact ih h
    · have hcf : p c = false := by simpa using hc
      simp only [List.cons_append, dropWhile_cons_false hcf]

/-- The input does not start with "sia:" when its fourth character is a
skylink character, so trimUriPrefix leaves it unchanged. -/
theorem trimUriPref_skylink_head {id r : List Char} (hidlen : id.length = 46)
    (hid : ∀ c ∈ id, isSkylinkChar c = true) :
    trimUriPref (id ++ r) uriSkynetPref = id ++ r := by
  obtain ⟨c0, c1, c2, c3, t, rfl⟩ := exists_four_cons (by omega : 4 ≤ id.length)
  have hc3 : c3 ≠ ':' := (skylinkChar_ne (hid c3 (by simp))).1
  unfold trimUriPref
  rw [if_neg ?neg1, if_neg ?neg2]
  case neg1 =>
    rw [List.isPrefixOf_iff_prefix]
    show ¬(['s', 'i', 'a', ':', '/', '/'] <+: _)
    simp only [List.cons_append, List.cons_prefix_cons]
    rintro ⟨_, _, _, h, _⟩
    exact hc3 h.symm
  case neg2 =>
    rw [List.isPrefixOf_iff_prefix]
    show ¬(['s', 'i', 'a', ':'] <+: _)
    simp only [List.cons_append, List.cons_prefix_cons]
    rintro ⟨_, _, _, h, _⟩
    exact hc3 h.symm

/-- trimUriPrefix on "sia:" followed by anything not opening with '/'. -/
theorem trimUriPref_sia_colon {c0 : Char} {t : List Char} (hc0 : c0 ≠ '/') :
    trimUriPref (uriSkynetPref ++ c0 :: t) uriSkynetPref = c0 :: t := by
  unfold trimUriPref
  rw [if_neg ?neg, if_pos ?pos]
  case neg =>
    rw [List.isPrefixOf_iff_prefix]
    show ¬(['s', 'i', 'a', ':', '/', '/'] <+: ['s', 'i', 'a', ':'] ++ c0 :: t)
    simp only [List.cons_append, List.cons_prefix_cons, List.nil_append]
    rintro ⟨_, _, _, _, h, _⟩
    exact hc0 h.symm
  case pos =>
    rw [List.isPrefixOf_iff_prefix]
    exact List.prefix_append _ _
  rfl

/-- trimUriPrefix on "sia://" strips the six-character prefix. -/
theorem trimUriPref_sia_slashes {x : List Char} :
    trimUriPref (uriSkynetPref ++ ['/', '/'] ++ x) uriSkynetPref = x := by
  unfold trimUriPref
  rw [if_pos ?pos]
  case pos =>
    rw [List.isPrefixOf_iff_prefix, List.append_assoc]
    exact List.prefix_append _ _
  rfl

/-- trimUriPrefix leaves an address starting with 'h' (an https URL)
unchanged. -/
theorem trimUriPref_h_head {x : List Char} :
    trimUriPref ('h' :: x) uriSkynetPref = 'h' :: x := by
  unfold trimUriPref
  rw [if_neg ?neg1, if_neg ?neg2]
  case neg1 =>
    rw [List.isPrefixOf_iff_prefix]
    show ¬(['s', 'i', 'a', ':', '/', '/'] <+: _)
    simp only [List.cons_prefix_cons]
    rintro ⟨h, _⟩
    exact absurd h (by decide)
  case neg2 =>
    rw [List.isPrefixOf_iff_prefix]
    show ¬(['s', 'i', 'a', ':'] <+: _)
    simp only [List.cons_prefix_cons]
    rintro ⟨h, _⟩
    exact absurd h (by decide)

/-- splitScheme yields none whenever the first character after the
scheme-character run is not a colon. -/
theorem splitScheme_eq_none {l : List Char}
    (h : (l.dropWhile isSchemeChar).headD ' ' ≠ ':') : splitScheme l = none := by
  unfold splitScheme
  by_cases he : (l.takeWhile isSchemeChar).isEmpty
  · rw [if_pos he]
  · rw [if_neg he]
    by_cases ha : ((l.takeWhile isSchemeChar).headD ' ').isAlpha
    · rw [if_pos ha, drop_takeWhile_length]
      cases hd : l.dropWhile isSchemeChar with
      | nil => rfl
      | cons c ct =>
        rw [hd] at h
        have hc : c ≠ ':' := by simpa using h
        split
        · next rest heq =>
          rw [List.cons.injEq] at heq
          exact absurd heq.1 hc
        · rfl
    · rw [if_neg ha]

/-- A skylink identifier followed by a path has no URI scheme. -/
theorem splitScheme_skylink {id path : List Char}
    (hid : ∀ c ∈ id, isSkylinkChar c = true)
    (hpath : path = [] ∨ path.headD ' ' = '/') :
    splitScheme (id ++ path) = none := by
  refine splitScheme_eq_none ?_
  by_cases hall : ∀ c ∈ id, isSchemeChar c = true
  · rw [dropWhile_append_of_all hall]
    rcases hpath with rfl | hp
    · simp
    · cases path with
      | nil => simp
      | cons c ct =>
        have hc : c = '/' := by simpa using hp
        subst hc
        rw [dropWhile_cons_false (by decide)]
        simp
  · push_neg at hall
    obtain ⟨c, hcmem, hcp⟩ := hall
    have hne : id.dropWhile isSchemeChar ≠ [] := by
      intro h0
      rw [List.dropWhile_eq_nil_iff] at h0
      exact hcp (h0 c hcmem)
    rw [dropWhile_append_of_ne_nil hne]
    cases hd : id.dropWhile isSchemeChar with
    | nil => exact absurd hd hne
    | cons d dt =>
      obtain ⟨hdmem, _⟩ := dropWhile_cons_of hd
      have hdc := (skylinkChar_ne (hid d hdmem)).1
      simpa using hdc

/-- A skylink character passes the not-query-not-fragment filter. -/
theorem skylinkChar_not_reserved {c : Char} (h : isSkylinkChar c = true) :
    (c ≠ '?' && c ≠ '#') = true := by
  obtain ⟨_, _, h1, h2, _, _⟩ := skylinkChar_ne h
  simp [h1, h2]

/-- urlPathname of a relative address formed by an identifier, a path and an
optional query/fragment suffix. -/
theorem urlPathname_rel {id path suffix : List Char} (hidlen : id.length = 46)
    (hid : ∀ c ∈ id, isSkylinkChar c = true)
    (hpath : path = [] ∨ (path.headD ' ' = '/' ∧ ∀ c ∈ path, c ≠ '?' ∧ c ≠ '#'))
    (hsuf : suffix = [] ∨ suffix.headD ' ' = '?' ∨ suffix.headD ' ' = '#') :
    urlPathname (id ++ path ++ suffix) = id ++ path := by
  have hpathq : ∀ c ∈ path, (c ≠ '?' && c ≠ '#') = true := by
    intro c hc
    rcases hpath with rfl | ⟨_, hq⟩
    · simp at hc
    · obtain ⟨h1, h2⟩ := hq c hc
      simp [h1, h2]
  have htake : (id ++ path ++ suffix).takeWhile (fun c => c ≠ '?' && c ≠ '#') =
      id ++ path := by
    rw [List.append_assoc,
      takeWhile_append_of_all fun c hc => skylinkChar_not_reserved (hid c hc),
      takeWhile_append_of_all hpathq, takeWhile_head_false ?hsuf]
    · simp
    case hsuf =>
      rcases hsuf with rfl | h | h
      · exact Or.inl rfl
      · exact Or.inr (by rw [h]; decide)
      · exact Or.inr (by rw [h]; decide)
  have hpath' : path = [] ∨ path.headD ' ' = '/' := by
    rcases hpath with rfl | ⟨h, _⟩
    · exact Or.inl rfl
    · exact Or.inr h
  obtain ⟨c0, c1, c2, c3, t, rfl⟩ := exists_four_cons (by omega : 4 ≤ id.length)
  have hc0 : c0 ≠ '/' := (skylinkChar_ne (hid c0 (by simp))).2.1
  unfold urlPathname
  rw [htake, splitScheme_skylink hid hpath']
  show (match (c0 :: c1 :: c2 :: c3 :: t) ++ path with
    | '/' :: '/' :: rest2 => rest2.dropWhile (· ≠ '/')
    | p => p) = (c0 :: c1 :: c2 :: c3 :: t) ++ path
  split
  · next rest2 heq =>
    rw [List.cons_append, List.cons.injEq] at heq
    exact absurd heq.1 hc0
  · rfl

/-- The scheme-character run of "https:..." is exactly "https". -/
theorem takeWhile_scheme_https (rest : List Char) :
    (('h' :: 't' :: 't' :: 'p' :: 's' :: ':' :: rest).takeWhile isSchemeChar) =
      ['h', 't', 't', 'p', 's'] := by
  rw [List.takeWhile_cons, if_pos (by decide), List.takeWhile_cons, if_pos (by decide),
    List.takeWhile_cons, if_pos (by decide), List.takeWhile_cons, if_pos (by decide),
    List.takeWhile_cons, if_pos (by decide), List.takeWhile_cons, if_neg (by decide)]

/-- splitScheme strips "https:" off an https URL. -/
theorem splitScheme_https (rest : List Char) :
    splitScheme ('h' :: 't' :: 't' :: 'p' :: 's' :: ':' :: rest) = some rest := by
  unfold splitScheme
  rw [takeWhile_scheme_https]
  rw [if_neg (by decide), if_pos (by decide)]
  rfl

/-- urlPathname of an absolute https address whose first path segment starts
after the host. -/
theorem urlPathname_abs {host id path suffix : List Char}
    (hhost : ∀ c ∈ host, c ≠ '/' ∧ c ≠ '?' ∧ c ≠ '#')
    (hid : ∀ c ∈ id, isSkylinkChar c = true)
    (hpath : path = [] ∨ (path.headD ' ' = '/' ∧ ∀ c ∈ path, c ≠ '?' ∧ c ≠ '#'))
    (hsuf : suffix = [] ∨ suffix.headD ' ' = '?' ∨ suffix.headD ' ' = '#') :
    urlPathname ("https://".data ++ (host ++ ('/' :: (id ++ path ++ suffix)))) =
      '/' :: (id ++ path) := by
  have hpathq : ∀ c ∈ path, (c ≠ '?' && c ≠ '#') = true := by
    intro c hc
    rcases hpath with rfl | ⟨_, hq⟩
    · simp at hc
    · obtain ⟨h1, h2⟩ := hq c hc
      simp [h1, h2]
  have htake : ("https://".data ++ (host ++ ('/' :: (id ++ path ++ suffix)))).takeWhile
      (fun c => c ≠ '?' && c ≠ '#') =
      "https://".data ++ (host ++ ('/' :: (id ++ path))) := by
    rw [takeWhile_append_of_all (by decide),
      takeWhile_append_of_all (fun c hc => by
        obtain ⟨_, h1, h2⟩ := hhost c hc
        simp [h1, h2])]
    rw [List.takeWhile_cons, if_pos (by decide), List.append_assoc,
      takeWhile_append_of_all fun c hc => skylinkChar_not_reserved (hid c hc),
      takeWhile_append_of_all hpathq, takeWhile_head_false ?hsuf]
    · simp
    case hsuf =>
      rcases hsuf with rfl | h | h
      · exact Or.inl rfl
      · exact Or.inr (by rw [h]; decide)
      · exact Or.inr (by rw [h]; decide)
  unfold urlPathname
  rw [htake]
  rw [show "https://".data ++ (host ++ ('/' :: (id ++ path))) =
    'h' :: 't' :: 't' :: 'p' :: 's' :: ':' ::
      ('/' :: '/' :: (host ++ ('/' :: (id ++ path)))) from rfl]
  rw [splitScheme_https]
  show (host ++ ('/' :: (id ++ path))).dropWhile (· ≠ '/') = '/' :: (id ++ path)
  rw [dropWhile_append_of_all (fun c hc => by simpa using (hhost c hc).1),
    dropWhile_cons_false (by simp)]

theorem matchDirect_some {id : List Char} (hidlen : id.length = 46)
    (hid : ∀ c ∈ id, isSkylinkChar c = true) : matchDirect id = some id := by
  unfold matchDirect
  rw [if_pos ⟨hidlen, List.all_eq_true.mpr hid⟩]

theorem matchDirect_none {l : List Char} (h : l.length ≠ 46) : matchDirect l = none := by
  unfold matchDirect
  rw [if_neg]
  rintro ⟨h1, _⟩
  exact h h1

theorem matchPathnameTail_some {id path : List Char} (hidlen : id.length = 46)
    (hid : ∀ c ∈ id, isSkylinkChar c = true)
    (hpath : path = [] ∨ path.headD ' ' = '/') :
    matchPathnameTail (id ++ path) = some (id, path) := by
  have htake : (id ++ path).take 46 = id := by rw [← hidlen, List.take_left]
  have hdrop : (id ++ path).drop 46 = path := by rw [← hidlen, List.drop_left]
  unfold matchPathnameTail
  rw [htake, hdrop, if_pos ⟨hidlen, List.all_eq_true.mpr hid, by
    rcases hpath with rfl | h
    · exact Or.inl rfl
    · exact Or.inr h⟩]

theorem matchPathname_of_skylink {id path : List Char} (hidlen : id.length = 46)
    (hid : ∀ c ∈ id, isSkylinkChar c = true)
    (hpath : path = [] ∨ path.headD ' ' = '/') :
    matchPathname (id ++ path) = some (id, path) := by
  obtain ⟨c0, c1, c2, c3, t, heq⟩ := exists_four_cons (by omega : 4 ≤ id.length)
  have hc0 : c0 ≠ '/' := (skylinkChar_ne (hid c0 (by simp [heq]))).2.1
  unfold matchPathname
  rw [heq]
  split
  · next rest hmm =>
    rw [List.cons_append, List.cons.injEq] at hmm
    exact absurd hmm.1 hc0
  · rw [← heq]
    exact matchPathnameTail_some hidlen hid hpath

theorem matchPathname_abs {id path : List Char} (hidlen : id.length = 46)
    (hid : ∀ c ∈ id, isSkylinkChar c = true)
    (hpath : path = [] ∨ path.headD ' ' = '/') :
    matchPathname ('/' :: (id ++ path)) = some (id, path) := by
  show matchPathnameTail (id ++ path) = some (id, path)
  exact matchPathnameTail_some hidlen hid hpath

theorem getLast_skylink {id : List Char} (hid : ∀ c ∈ id, isSkylinkChar c = true) :
    id.getLast? ≠ some '/' := by
  intro h
  exact (skylinkChar_ne (hid _ (List.mem_of_mem_getLast? h))).2.1 rfl

theorem getLast_append_ne {id path : List Char}
    (hidlast : id.getLast? ≠ some '/') (hplast : path.getLast? ≠ some '/') :
    (id ++ path).getLast? ≠ some '/' := by
  cases path with
  | nil => simpa using hidlast
  | cons c t =>
    rw [List.getLast?_append_of_ne_nil _ (by simp)]
    exact hplast

theorem trimForwardSlash_of {l : List Char} (hhead : l = [] ∨ l.headD ' ' ≠ '/')
    (hlast : l.getLast? ≠ some '/') : trimForwardSlash l = l := by
  unfold trimForwardSlash
  rw [trimSuffix_of_getLast hlast, trimHead_of_head hhead]

theorem trimForwardSlash_slash {id path : List Char} (hidne : id ≠ [])
    (hidhead : id.headD ' ' ≠ '/') (hlast : (id ++ path).getLast? ≠ some '/') :
    trimForwardSlash ('/' :: (id ++ path)) = id ++ path := by
  unfold trimForwardSlash
  rw [trimSuffix_of_getLast (by
    rw [getLast?_cons_of_ne _ (by simp [hidne])]
    exact hlast)]
  unfold trimHead
  rw [List.dropWhile_cons, if_pos (by decide)]
  cases id with
  | nil => exact absurd rfl hidne
  | cons c t =>
    rw [List.cons_append]
    refine dropWhile_cons_false ?_
    simp only [List.headD_cons] at hidhead
    simpa using hidhead

/-- Results of parseSkylink on an input whose sia-trimmed form is a relative
address: identifier, optional path, optional query/fragment suffix. -/
theorem parse_of_trim_rel {u id path suffix : List Char}
    (hidlen : id.length = 46) (hid : ∀ c ∈ id, isSkylinkChar c = true)
    (hpath : path = [] ∨ (path.headD ' ' = '/' ∧ path.getLast? ≠ some '/' ∧
      ∀ c ∈ path, c ≠ '?' ∧ c ≠ '#'))
    (hsuf : suffix = [] ∨ suffix.headD ' ' = '?' ∨ suffix.headD ' ' = '#')
    (ht : trimUriPref u uriSkynetPref = id ++ path ++ suffix) :
    parseSkylink u {} = .found id ∧
    parseSkylink u { includePath := true } = .found (id ++ path) := by
  have hidne : id ≠ [] := by
    intro h
    rw [h] at hidlen
    simp at hidlen
  by_cases hemp : path = [] ∧ suffix = []
  · obtain ⟨hp, hs⟩ := hemp
    subst hp
    subst hs
    rw [List.append_nil, List.append_nil] at ht
    have hdir : matchDirect (trimUriPref u uriSkynetPref) = some id := by
      rw [ht]
      exact matchDirect_some hidlen hid
    constructor
    · unfold parseSkylink parseAfterTrim
      rw [hdir]
      rfl
    · unfold parseSkylink parseAfterTrim
      rw [hdir]
      show ParseOut.found id = ParseOut.found (id ++ [])
      rw [List.append_nil]
  · have hlen2 : (id ++ path ++ suffix).length ≠ 46 := by
      simp only [List.length_append, hidlen]
      intro hc
      have hp0 : path.length = 0 ∧ suffix.length = 0 := by omega
      exact hemp ⟨List.length_eq_zero.mp hp0.1, List.length_eq_zero.mp hp0.2⟩
    have hdir : matchDirect (trimUriPref u uriSkynetPref) = none := by
      rw [ht]
      exact matchDirect_none hlen2
    have hpath1 : path = [] ∨ (path.headD ' ' = '/' ∧ ∀ c ∈ path, c ≠ '?' ∧ c ≠ '#') := by
      rcases hpath with rfl | ⟨h1, _, h3⟩
      · exact Or.inl rfl
      · exact Or.inr ⟨h1, h3⟩
    have hpath2 : path = [] ∨ path.headD ' ' = '/' := by
      rcases hpath1 with rfl | ⟨h1, _⟩
      · exact Or.inl rfl
      · exact Or.inr h1
    have hup : urlPathname (id ++ path ++ suffix) = id ++ path :=
      urlPathname_rel hidlen hid hpath1 hsuf
    have hplast : path.getLast? ≠ some '/' := by
      rcases hpath with rfl | ⟨_, h2, _⟩
      · simp
      · exact h2
    have hlast : (id ++ path).getLast? ≠ some '/' :=
      getLast_append_ne (getLast_skylink hid) hplast
    have htrim : trimSuffix (urlPathname (trimUriPref u uriSkynetPref)) '/' = id ++ path := by
      rw [ht, hup]
      exact trimSuffix_of_getLast hlast
    have hmp : matchPathname (trimSuffix (urlPathname (trimUriPref u uriSkynetPref)) '/') =
        some (id, path) := by
      rw [htrim]
      exact matchPathname_of_skylink hidlen hid hpath2
    have hhead : (id ++ path).headD ' ' ≠ '/' := by
      cases id with
      | nil => exact absurd rfl hidne
      | cons c t =>
        rw [List.cons_append, List.headD_cons]
        exact (skylinkChar_ne (hid c (by simp))).2.1
    have htf : trimForwardSlash (id ++ path) = id ++ path :=
      trimForwardSlash_of (Or.inr hhead) hlast
    constructor
    · unfold parseSkylink parseAfterTrim
      rw [hdir, hmp]
      rfl
    · unfold parseSkylink parseAfterTrim
      rw [hdir, hmp, htrim, htf]
      rfl

/-- Results of parseSkylink on an https URL carrying the identifier as first
path segment. -/
theorem parse_of_trim_abs {u host id path suffix : List Char}
    (hhost : ∀ c ∈ host, c ≠ '/' ∧ c ≠ '?' ∧ c ≠ '#')
    (hidlen : id.length = 46) (hid : ∀ c ∈ id, isSkylinkChar c = true)
    (hpath : path = [] ∨ (path.headD ' ' = '/' ∧ path.getLast? ≠ some '/' ∧
      ∀ c ∈ path, c ≠ '?' ∧ c ≠ '#'))
    (hsuf : suffix = [] ∨ suffix.headD ' ' = '?' ∨ suffix.headD ' ' = '#')
    (ht : trimUriPref u uriSkynetPref =
      "https://".data ++ (host ++ ('/' :: (id ++ path ++ suffix)))) :
    parseSkylink u {} = .found id ∧
    parseSkylink u { includePath := true } = .found (id ++ path) := by
  have hidne : id ≠ [] := by
    intro h
    rw [h] at hidlen
    simp at hidlen
  have hlen2 : ("https://".data ++ (host ++ ('/' :: (id ++ path ++ suffix)))).length ≠ 46 := by
    simp only [List.length_append, List.length_cons, hidlen]
    have : ("https://".data).length = 8 := rfl
    omega
  have hdir : matchDirect (trimUriPref u uriSkynetPref) = none := by
    rw [ht]
    exact matchDirect_none hlen2
  have hpath1 : path = [] ∨ (path.headD ' ' = '/' ∧ ∀ c ∈ path, c ≠ '?' ∧ c ≠ '#') := by
    rcases hpath with rfl | ⟨h1, _, h3⟩
    · exact Or.inl rfl
    · exact Or.inr ⟨h1, h3⟩
  have hpath2 : path = [] ∨ path.headD ' ' = '/' := by
    rcases hpath1 with rfl | ⟨h1, _⟩
    · exact Or.inl rfl
    · exact Or.inr h1
  have hup : urlPathname ("https://".data ++ (host ++ ('/' :: (id ++ path ++ suffix)))) =
      '/' :: (id ++ path) := urlPathname_abs hhost hid hpath1 hsuf
  have hplast : path.getLast? ≠ some '/' := by
    rcases hpath with rfl | ⟨_, h2, _⟩
    · simp
    · exact h2
  have hlast : (id ++ path).getLast? ≠ some '/' :=
    getLast_append_ne (getLast_skylink hid) hplast
  have htrim : trimSuffix (urlPathname (trimUriPref u uriSkynetPref)) '/' =
      '/' :: (id ++ path) := by
    rw [ht, hup]
    refine trimSuffix_of_getLast ?_
    rw [getLast?_cons_of_ne _ (by simp [hidne])]
    exact hlast
  have hmp : matchPathname (trimSuffix (urlPathname (trimUriPref u uriSkynetPref)) '/') =
      some (id, path) := by
    rw [htrim]
    exact matchPathname_abs hidlen hid hpath2
  have hhead : id.headD ' ' ≠ '/' := by
    cases id with
    | nil => exact absurd rfl hidne
    | cons c t =>
      rw [List.headD_cons]
      exact (skylinkChar_ne (hid c (by simp))).2.1
  have htf : trimForwardSlash ('/' :: (id ++ path)) = id ++ path :=
    trimForwardSlash_slash hidne hhead hlast
  constructor
  · unfold parseSkylink parseAfterTrim
    rw [hdir, hmp]
    rfl
  · unfold parseSkylink parseAfterTrim
    rw [hdir, hmp, htrim, htf]
    rfl

/-- The textual wrappings of an identifier the parser supports: bare,
"sia:"-prefixed, "sia://"-prefixed, or first path element of an https URL. -/
inductive Wrapping where
  | bare : Wrapping
  | siaColon : Wrapping
  | siaSlash : Wrapping
  | inUrl : List Char → Wrapping

def wrapSkylink : Wrapping → List Char → List Char → List Char → List Char
  | .bare, id, path, suffix => id ++ path ++ suffix
  | .siaColon, id, path, suffix => uriSkynetPref ++ (id ++ path ++ suffix)
  | .siaSlash, id, path, suffix => uriSkynetPref ++ ['/', '/'] ++ (id ++ path ++ suffix)
  | .inUrl host, id, path, suffix =>
      "https://".data ++ (host ++ ('/' :: (id ++ path ++ suffix)))

/-- Side condition on the wrapping: a URL host carries no '/', '?' or '#'. -/
def wrapOk : Wrapping → Prop
  | .inUrl host => ∀ c ∈ host, c ≠ '/' ∧ c ≠ '?' ∧ c ≠ '#'
  | _ => True

/-- C3: for every valid 46-character base64url identifier and every supported
textual wrapping of it — bare, "sia:"-prefixed, "sia://"-prefixed, or embedded
as the first path element of a URL, each with an optional trailing path and an
optional query or fragment — parseSkylink in default mode returns the
identifier, and with includePath set returns the identifier joined with the
same trailing path. -/
theorem c3_parse_wrappings (w : Wrapping) (id path suffix : List Char)
    (hw : wrapOk w)
    (hidlen : id.length = 46) (hid : ∀ c ∈ id, isSkylinkChar c = true)
    (hpath : path = [] ∨ (path.headD ' ' = '/' ∧ path.getLast? ≠ some '/' ∧
      ∀ c ∈ path, c ≠ '?' ∧ c ≠ '#'))
    (hsuf : suffix = [] ∨ suffix.headD ' ' = '?' ∨ suffix.headD ' ' = '#') :
    parseSkylink (wrapSkylink w id path suffix) {} = .found id ∧
    parseSkylink (wrapSkylink w id path suffix) { includePath := true } =
      .found (id ++ path) := by
  cases w with
  | bare =>
    refine parse_of_trim_rel hidlen hid hpath hsuf ?_
    have h2 : trimUriPref (id ++ (path ++ suffix)) uriSkynetPref =
        id ++ (path ++ suffix) := trimUriPref_skylink_head hidlen hid
    rwa [← List.append_assoc] at h2
  | siaColon =>
    refine parse_of_trim_rel hidlen hid hpath hsuf ?_
    obtain ⟨c0, c1, c2, c3, t, heq⟩ := exists_four_cons (by omega : 4 ≤ id.length)
    have hc0 : c0 ≠ '/' := (skylinkChar_ne (hid c0 (by simp [heq]))).2.1
    show trimUriPref (uriSkynetPref ++ (id ++ path ++ suffix)) uriSkynetPref =
      id ++ path ++ suffix
    rw [heq]
    rw [show (c0 :: c1 :: c2 :: c3 :: t) ++ path ++ suffix =
      c0 :: ((c1 :: c2 :: c3 :: t) ++ path ++ suffix) from by simp]
    exact trimUriPref_sia_colon hc0
  | siaSlash =>
    exact parse_of_trim_rel hidlen hid hpath hsuf trimUriPref_sia_slashes
  | inUrl host =>
    refine parse_of_trim_abs hw hidlen hid hpath hsuf ?_
    show trimUriPref ("https://".data ++ (host ++ ('/' :: (id ++ path ++ suffix))))
      uriSkynetPref = _
    rw [show "https://".data ++ (host ++ ('/' :: (id ++ path ++ suffix))) =
      'h' :: ("ttps://".data ++ (host ++ ('/' :: (id ++ path ++ suffix)))) from rfl]
    exact trimUriPref_h_head

/-- C3 witness: the spec's concrete scenario, "sia://" wrapping of the test
identifier with path "/foo/bar": default mode returns the identifier,
includePath returns identifier plus path. -/
theorem c3_parse_wrappings_witness :
    parseSkylink (wrapSkylink Wrapping.siaSlash testSkylink "/foo/bar".data []) {} =
      .found testSkylink ∧
    parseSkylink (wrapSkylink Wrapping.siaSlash testSkylink "/foo/bar".data [])
      { includePath := true } = .found (testSkylink ++ "/foo/bar".data) :=
  c3_parse_wrappings Wrapping.siaSlash testSkylink ("/foo/bar".data) [] trivial
    (by decide) (by decide) (by decide) (by decide)

/-! ## C9: option-combination errors -/

theorem parseSkylinkBase32_ne_thrown (l : List Char) (opts : ParseOpts) :
    parseSkylinkBase32 l opts ≠ ParseOut.thrown := by
  unfold parseSkylinkBase32
  cases h : matchSubdomain (urlHostname l) with
  | none => simp
  | some m =>
    by_cases ho : opts.onlyPath = true <;> simp [ho]

/-- A concrete base32-subdomain URL from the repository test suite. -/
def testSubdomainUrl : List Char :=
  "https://bg06v2tidkir84hg0s1s4t97jaeoaa1jse1svrad657u070c9calq4g.siasky.net/foo".data

/-- C9 (amended): includePath is pairwise exclusive with onlyPath and with
fromSubdomain — those combinations throw for every input — but onlyPath
combined with fromSubdomain is accepted: the call is dispatched to the base32
subdomain parser, which never throws. -/
theorem c9_flag_exclusivity (l : List Char) (opts : ParseOpts) :
    (opts.includePath = true → opts.onlyPath = true → parseSkylink l opts = .thrown) ∧
    (opts.includePath = true → opts.fromSubdomain = true →
      parseSkylink l opts = .thrown) ∧
    (opts.onlyPath = true → opts.fromSubdomain = true → opts.includePath = false →
      parseSkylink l opts ≠ .thrown) := by
  refine ⟨?_, ?_, ?_⟩
  · intro h1 h2
    unfold parseSkylink
    rw [h1, h2]
    rfl
  · intro h1 h2
    unfold parseSkylink
    rw [h1, h2]
    by_cases ho : opts.onlyPath = true
    · rw [ho]
      rfl
    · rw [Bool.not_eq_true] at ho
      rw [ho]
      rfl
  · intro h1 h2 h3
    unfold parseSkylink
    rw [h1, h2, h3]
    exact parseSkylinkBase32_ne_thrown l opts

/-- C9 witness: the amended exclusivity theorem at the concrete subdomain URL
and concrete option bags. -/
theorem c9_flag_exclusivity_witness :
    parseSkylink testSubdomainUrl { onlyPath := true, includePath := true } =
      ParseOut.thrown ∧
    parseSkylink testSubdomainUrl { includePath := true, fromSubdomain := true } =
      ParseOut.thrown ∧
    parseSkylink testSubdomainUrl { onlyPath := true, fromSubdomain := true } ≠
      ParseOut.thrown :=
  ⟨(c9_flag_exclusivity testSubdomainUrl _).1 rfl rfl,
   (c9_flag_exclusivity testSubdomainUrl _).2.1 rfl rfl,
   (c9_flag_exclusivity testSubdomainUrl _).2.2 rfl rfl rfl⟩

/-- C9 counterexample: the claim that onlyPath and fromSubdomain are mutually
exclusive fails on the code — parseSkylink with both flags set does not throw
for a base32 subdomain URL; it returns the URL's pathname. The source only
rejects the two combinations involving includePath. -/
theorem c9_counterexample :
    parseSkylink testSubdomainUrl { onlyPath := true, fromSubdomain := true } =
      ParseOut.found "/foo".data ∧
    parseSkylink testSubdomainUrl { onlyPath := true, fromSubdomain := true } ≠
      ParseOut.thrown := by
  refine ⟨by decide, by decide⟩

/-! ## C10 helpers: trailing-slash normalization -/

theorem takeWhile_eq_self_of_all {p : Char → Bool} {l : List Char}
    (h : ∀ c ∈ l, p c = true) : l.takeWhile p = l := by
  induction l with
  | nil => rfl
  | cons c t ih =>
    rw [List.takeWhile_cons, if_pos (h c (by simp)), ih fun d hd => h d (by simp [hd])]

theorem takeWhile_append_of_ne_nil {p : Char → Bool} {a b : List Char}
    (h : a.dropWhile p ≠ []) : (a ++ b).takeWhile p = a.takeWhile p := by
  induction a with
  | nil => exact absurd rfl h
  | cons c rest ih =>
    by_cases hc : p c
    · rw [List.dropWhile_cons, if_pos hc] at h
      simp only [List.cons_append, List.takeWhile_cons, hc, if_true]
      rw [ih h]
    · have hcf : p c = false := by simpa using hc
      rw [List.cons_append, takeWhile_cons_false hcf, takeWhile_cons_false hcf]

theorem trimSuffix_replicate (n : Nat) (c : Char) :
    trimSuffix (List.replicate n c) c = [] := by
  unfold trimSuffix
  rw [List.reverse_replicate]
  rw [show (List.replicate n c).dropWhile (· == c) = [] from ?_, List.reverse_nil]
  rw [List.dropWhile_eq_nil_iff]
  intro x hx
  simp [List.eq_of_mem_replicate hx]

theorem trimSuffix_append_replicate (x : List Char) (n : Nat) (c : Char) :
    trimSuffix (x ++ List.replicate n c) c = trimSuffix x c := by
  unfold trimSuffix
  rw [List.reverse_append, List.reverse_replicate,
    dropWhile_append_of_all fun d hd => by simp [List.eq_of_mem_replicate hd]]

theorem dropWhile_ne_slash_replicate (n : Nat) :
    (List.replicate n '/').dropWhile (· ≠ '/') = List.replicate n '/' := by
  cases n with
  | zero => rfl
  | succ m =>
    rw [List.replicate_succ]
    exact dropWhile_cons_false (by simp)

theorem trimSuffix_dropWhile_slash (r : List Char) (n : Nat) :
    trimSuffix ((r ++ List.replicate n '/').dropWhile (· ≠ '/')) '/' =
      trimSuffix (r.dropWhile (· ≠ '/')) '/' := by
  by_cases hr : r.dropWhile (· ≠ '/') = []
  · rw [hr]
    rw [List.dropWhile_eq_nil_iff] at hr
    rw [dropWhile_append_of_all hr, dropWhile_ne_slash_replicate, trimSuffix_replicate]
    rfl
  · rw [dropWhile_append_of_ne_nil hr, trimSuffix_append_replicate]

theorem matchDirect_append_slashes {t : List Char} {n : Nat} (hn : 1 ≤ n) :
    matchDirect (t ++ List.replicate n '/') = none := by
  unfold matchDirect
  rw [if_neg]
  rintro ⟨_, h2⟩
  rw [List.all_eq_true] at h2
  have hmem : '/' ∈ t ++ List.replicate n '/' := by
    refine List.mem_append_right _ ?_
    cases n with
    | zero => omega
    | succ m => simp
  exact absurd (h2 _ hmem) (by decide)

theorem splitScheme_eq_some {l rest : List Char}
    (hne : ¬(l.takeWhile isSchemeChar).isEmpty = true)
    (ha : ((l.takeWhile isSchemeChar).headD ' ').isAlpha = true)
    (hd : l.dropWhile isSchemeChar = ':' :: rest) :
    splitScheme l = some rest := by
  unfold splitScheme
  rw [if_neg hne, if_pos ha, drop_takeWhile_length, hd]
  rfl

theorem splitScheme_eq_none_of_empty {l : List Char}
    (he : (l.takeWhile isSchemeChar).isEmpty = true) : splitScheme l = none := by
  unfold splitScheme
  rw [if_pos he]

theorem splitScheme_eq_none_of_not_alpha {l : List Char}
    (hne : ¬(l.takeWhile isSchemeChar).isEmpty = true)
    (ha : ¬((l.takeWhile isSchemeChar).headD ' ').isAlpha = true) :
    splitScheme l = none := by
  unfold splitScheme
  rw [if_neg hne, if_neg ha]

theorem takeWhile_scheme_replicate (n : Nat) :
    (List.replicate n '/').takeWhile isSchemeChar = [] := by
  cases n with
  | zero => rfl
  | succ m =>
    rw [List.replicate_succ]
    exact takeWhile_cons_false (by decide)

theorem dropWhile_scheme_replicate (n : Nat) :
    (List.replicate n '/').dropWhile isSchemeChar = List.replicate n '/' := by
  cases n with
  | zero => rfl
  | succ m =>
    rw [List.replicate_succ]
    exact dropWhile_cons_false (by decide)

/-- Appending trailing slashes commutes with the authority-dropping dispatch
of the URL pathname, up to trailing-slash trimming. -/
theorem trimSuffix_slash_dispatch_append (r : List Char) (n : Nat) :
    trimSuffix (match r ++ List.replicate n '/' with
      | '/' :: '/' :: rest2 => List.dropWhile (fun x => decide (x ≠ '/')) rest2
      | p => p) '/' =
    trimSuffix (match r with
      | '/' :: '/' :: rest2 => List.dropWhile (fun x => decide (x ≠ '/')) rest2
      | p => p) '/' := by
  split
  · rename_i rest2 heq
    split
    · rename_i rest2'
      rw [List.cons_append, List.cons_append, List.cons.injEq, List.cons.injEq] at heq
      rw [← heq.2.2]
      exact trimSuffix_dropWhile_slash rest2' n
    · rename_i hne
      rcases r with _ | ⟨c0, _ | ⟨c1, r2⟩⟩
      · rcases n with _ | _ | m
        · simp at heq
        · rw [show List.replicate 1 '/' = ['/'] from rfl] at heq
          simp at heq
        · rw [List.replicate_succ, List.replicate_succ, List.nil_append] at heq
          rw [List.cons.injEq, List.cons.injEq] at heq
          rw [← heq.2.2, dropWhile_ne_slash_replicate, trimSuffix_replicate]
          rfl
      · rcases n with _ | m
        · simp at heq
        · rw [List.replicate_succ] at heq
          rw [show [c0] ++ '/' :: List.replicate m '/' = c0 :: '/' :: List.replicate m '/'
            from rfl] at heq
          rw [List.cons.injEq, List.cons.injEq] at heq
          rw [← heq.2.2, dropWhile_ne_slash_replicate, trimSuffix_replicate, heq.1]
          rw [show ['/'] = List.replicate 1 '/' from rfl, trimSuffix_replicate]
      · rw [List.cons_append, List.cons_append, List.cons.injEq, List.cons.injEq] at heq
        exact absurd (by rw [heq.1, heq.2.1]) (hne r2)
  · rename_i hne1
    split
    · rename_i rest2'
      refine absurd ?_ (hne1 (rest2' ++ List.replicate n '/'))
      rw [List.cons_append, List.cons_append]
    · exact trimSuffix_append_replicate r n '/'

/-- splitScheme on an address versus the same address with trailing slashes
appended: either both have no scheme, or both have the same scheme and the
remainder gains exactly the appended slashes. -/
theorem splitScheme_append_slashes (t : List Char) (n : Nat) :
    (splitScheme t = none ∧ splitScheme (t ++ List.replicate n '/') = none) ∨
    (∃ u, splitScheme t = some u ∧
      splitScheme (t ++ List.replicate n '/') = some (u ++ List.replicate n '/')) := by
  by_cases hall : ∀ c ∈ t, isSchemeChar c = true
  · left
    have htt : t.takeWhile isSchemeChar = t := takeWhile_eq_self_of_all hall
    have htw : (t ++ List.replicate n '/').takeWhile isSchemeChar = t := by
      rw [takeWhile_append_of_all hall, takeWhile_scheme_replicate, List.append_nil]
    by_cases hte : t = []
    · subst hte
      constructor
      · exact splitScheme_eq_none_of_empty (by rw [htt]; rfl)
      · exact splitScheme_eq_none_of_empty (by rw [htw]; rfl)
    · by_cases ha : (((t.takeWhile isSchemeChar)).headD ' ').isAlpha = true
      · constructor
        · refine splitScheme_eq_none ?_
          rw [List.dropWhile_eq_nil_iff.mpr hall]
          simp
        · refine splitScheme_eq_none ?_
          rw [dropWhile_append_of_all hall, dropWhile_scheme_replicate]
          cases n with
          | zero => simp
          | succ m =>
            rw [List.replicate_succ]
            simp
      · constructor
        · refine splitScheme_eq_none_of_not_alpha ?_ ha
          rw [htt]
          simpa using hte
        · refine splitScheme_eq_none_of_not_alpha ?_ ?_
          · rw [htw]
            simpa using hte
          · rwa [htw, ← htt]
  · push_neg at hall
    obtain ⟨b, hbmem, hbad⟩ := hall
    have hdw_ne : t.dropWhile isSchemeChar ≠ [] := by
      intro habs
      rw [List.dropWhile_eq_nil_iff] at habs
      exact hbad (habs b hbmem)
    obtain ⟨d, u', hdu⟩ : ∃ d u', t.dropWhile isSchemeChar = d :: u' := by
      cases h : t.dropWhile isSchemeChar with
      | nil => exact absurd h hdw_ne
      | cons d u' => exact ⟨d, u', rfl⟩
    have htw_eq : (t ++ List.replicate n '/').takeWhile isSchemeChar =
        t.takeWhile isSchemeChar := takeWhile_append_of_ne_nil hdw_ne
    have hdw_eq : (t ++ List.replicate n '/').dropWhile isSchemeChar =
        d :: (u' ++ List.replicate n '/') := by
      rw [dropWhile_append_of_ne_nil hdw_ne, hdu]
      rfl
    by_cases he : (t.takeWhile isSchemeChar).isEmpty = true
    · exact Or.inl ⟨splitScheme_eq_none_of_empty he,
        splitScheme_eq_none_of_empty (by rwa [htw_eq])⟩
    · by_cases ha : ((t.takeWhile isSchemeChar).headD ' ').isAlpha = true
      · by_cases hdc : d = ':'
        · subst hdc
          refine Or.inr ⟨u', splitScheme_eq_some he ha hdu, ?_⟩
          refine splitScheme_eq_some ?_ ?_ hdw_eq
          · rwa [htw_eq]
          · rwa [htw_eq]
        · refine Or.inl ⟨splitScheme_eq_none ?_, splitScheme_eq_none ?_⟩
          · rw [hdu]
            simpa using hdc
          · rw [hdw_eq]
            simpa using hdc
      · exact Or.inl ⟨splitScheme_eq_none_of_not_alpha he ha,
          splitScheme_eq_none_of_not_alpha (by rwa [htw_eq]) (by rwa [htw_eq])⟩

/-- Central C10 lemma: appending trailing slashes to a query-free and
fragment-free address does not change the slash-trimmed URL pathname. -/
theorem trimSuffix_urlPathname_append_slashes {t : List Char} (n : Nat)
    (hq : ∀ c ∈ t, (c ≠ '?' && c ≠ '#') = true) :
    trimSuffix (urlPathname (t ++ List.replicate n '/')) '/' =
      trimSuffix (urlPathname t) '/' := by
  have htake_t : t.takeWhile (fun c => c ≠ '?' && c ≠ '#') = t :=
    takeWhile_eq_self_of_all hq
  have htake_ts : (t ++ List.replicate n '/').takeWhile (fun c => c ≠ '?' && c ≠ '#') =
      t ++ List.replicate n '/' := by
    refine takeWhile_eq_self_of_all ?_
    intro c hc
    rcases List.mem_append.mp hc with h | h
    · exact hq c h
    · rw [List.eq_of_mem_replicate h]
      decide
  rcases splitScheme_append_slashes t n with ⟨hs2, hs1⟩ | ⟨u, hs2, hs1⟩
  · unfold urlPathname
    rw [htake_ts, htake_t, hs1, hs2]
    exact trimSuffix_slash_dispatch_append t n
  · unfold urlPathname
    rw [htake_ts, htake_t, hs1, hs2]
    split
    · rename_i rest2 heq
      rw [Option.some.injEq] at heq
      split
      · rename_i rest2x heqx
        rw [Option.some.injEq] at heqx
        subst heqx
        rw [List.cons_append, List.cons_append, List.cons.injEq, List.cons.injEq] at heq
        rw [← heq.2.2]
        exact trimSuffix_dropWhile_slash rest2x n
      · rename_i hno heqx
        rw [Option.some.injEq] at heqx
        subst heqx
        rcases u with _ | ⟨c0, _ | ⟨c1, u2⟩⟩
        · rcases n with _ | _ | m
          · simp at heq
          · rw [show List.replicate 1 '/' = ['/'] from rfl] at heq
            simp at heq
          · rw [List.replicate_succ, List.replicate_succ, List.nil_append] at heq
            rw [List.cons.injEq, List.cons.injEq] at heq
            rw [← heq.2.2, dropWhile_ne_slash_replicate, trimSuffix_replicate]
            rfl
        · rcases n with _ | m
          · simp at heq
          · rw [List.replicate_succ] at heq
            rw [show [c0] ++ '/' :: List.replicate m '/' = c0 :: '/' :: List.replicate m '/'
              from rfl] at heq
            rw [List.cons.injEq, List.cons.injEq] at heq
            rw [← heq.2.2, dropWhile_ne_slash_replicate, trimSuffix_replicate, heq.1]
            rw [show ['/'] = List.replicate 1 '/' from rfl, trimSuffix_replicate]
        · rw [List.cons_append, List.cons_append, List.cons.injEq, List.cons.injEq] at heq
          exact absurd (show c0 :: c1 :: u2 = '/' :: '/' :: u2 by rw [heq.1, heq.2.1])
            (hno u2)
      · rename_i heqx
        exact absurd heqx (by simp)
    · rename_i hno1 heq
      rw [Option.some.injEq] at heq
      split
      · rename_i rest2x heqx
        rw [Option.some.injEq] at heqx
        refine absurd ?_ (hno1 (rest2x ++ List.replicate n '/'))
        rw [← heq, heqx, List.cons_append, List.cons_append]
      · rename_i hno2 heqx
        rw [Option.some.injEq] at heqx
        rw [← heq, ← heqx]
        exact trimSuffix_append_replicate u n '/'
      · rename_i heqx
        exact absurd heqx (by simp)
    · rename_i heq
      exact absurd heq (by simp)

theorem not_cons_prefix_replicate {c d : Char} {rest : List Char} (hcd : c ≠ d) (n : Nat) :
    ¬((c :: rest) <+: List.replicate n d) := by
  cases n with
  | zero => simp
  | succ m =>
    rw [List.replicate_succ, List.cons_prefix_cons]
    rintro ⟨h, _⟩
    exact hcd h

/-- trimUriPrefix of "sia:" followed by anything that does not open with two
slashes strips exactly the four-character prefix. -/
theorem trimUriPref_sia_general {t : List Char}
    (h2 : ¬((['/', '/'] : List Char) <+: t)) :
    trimUriPref (uriSkynetPref ++ t) uriSkynetPref = t := by
  unfold trimUriPref
  rw [if_neg ?n1, if_pos ?p1]
  · exact List.drop_left uriSkynetPref t
  case p1 =>
    rw [List.isPrefixOf_iff_prefix]
    exact List.prefix_append _ _
  case n1 =>
    rw [List.isPrefixOf_iff_prefix]
    intro hp
    exact h2 ((List.prefix_append_right_inj uriSkynetPref).mp hp)

/-- trimUriPrefix on an address with trailing slashes appended: either the
slashes pass through untouched, or both trims produce all-slash strings (the
input was a fragment of the "sia://" prefix itself). -/
theorem trimUriPref_append_slashes (s : List Char) (n : Nat) :
    trimUriPref (s ++ List.replicate n '/') uriSkynetPref =
      trimUriPref s uriSkynetPref ++ List.replicate n '/' ∨
    (∃ k m, trimUriPref s uriSkynetPref = List.replicate k '/' ∧
      trimUriPref (s ++ List.replicate n '/') uriSkynetPref = List.replicate m '/') := by
  by_cases h6 : (uriSkynetPref ++ ['/', '/']).isPrefixOf s = true
  · left
    have hpre := List.isPrefixOf_iff_prefix.mp h6
    have h6' : (uriSkynetPref ++ ['/', '/']).isPrefixOf
        (s ++ List.replicate n '/') = true := by
      rw [List.isPrefixOf_iff_prefix]
      exact hpre.trans (List.prefix_append s _)
    unfold trimUriPref
    rw [if_pos h6, if_pos h6']
    refine List.drop_append_of_le_length ?_
    have := hpre.length_le
    simpa using this
  · by_cases h4 : uriSkynetPref.isPrefixOf s = true
    · obtain ⟨t, rfl⟩ := List.isPrefixOf_iff_prefix.mp h4
      have hnp : ¬((['/', '/'] : List Char) <+: t) := by
        intro hp
        refine h6 ?_
        rw [List.isPrefixOf_iff_prefix]
        exact (List.prefix_append_right_inj uriSkynetPref).mpr hp
      have hassoc : (uriSkynetPref ++ t) ++ List.replicate n '/' =
          uriSkynetPref ++ (t ++ List.replicate n '/') := List.append_assoc _ _ _
      by_cases hnp2 : (['/', '/'] : List Char) <+: (t ++ List.replicate n '/')
      · right
        rcases t with _ | ⟨d, t'⟩
        · have hn2 : 2 ≤ n := by simpa using hnp2.length_le
          obtain ⟨m, rfl⟩ : ∃ m, n = m + 2 := ⟨n - 2, by omega⟩
          refine ⟨0, m, by simpa using trimUriPref_sia_general hnp, ?_⟩
          rw [List.append_nil]
          rw [show List.replicate (m + 2) '/' = '/' :: '/' :: List.replicate m '/' from by
            rw [List.replicate_succ, List.replicate_succ]]
          rw [show uriSkynetPref ++ '/' :: '/' :: List.replicate m '/' =
            uriSkynetPref ++ ['/', '/'] ++ List.replicate m '/' from by
            rw [List.append_assoc]
            rfl]
          exact trimUriPref_sia_slashes
        · by_cases hd : d = '/'
          · subst hd
            rcases t' with _ | ⟨d2, t''⟩
            · have hn1 : 1 ≤ n := by
                have := hnp2.length_le
                simp at this
                omega
              obtain ⟨m, rfl⟩ : ∃ m, n = m + 1 := ⟨n - 1, by omega⟩
              refine ⟨1, m, by simpa using trimUriPref_sia_general hnp, ?_⟩
              rw [hassoc]
              rw [show ['/'] ++ List.replicate (m + 1) '/' =
                '/' :: '/' :: List.replicate m '/' from by
                rw [List.replicate_succ]
                rfl]
              rw [show uriSkynetPref ++ '/' :: '/' :: List.replicate m '/' =
                uriSkynetPref ++ ['/', '/'] ++ List.replicate m '/' from by
                rw [List.append_assoc]
                rfl]
              exact trimUriPref_sia_slashes
            · by_cases hd2 : d2 = '/'
              · subst hd2
                exact absurd ⟨t'', rfl⟩ hnp
              · exfalso
                rw [List.cons_append, List.cons_append, List.cons_prefix_cons] at hnp2
                obtain ⟨_, hnp2⟩ := hnp2
                rw [List.cons_prefix_cons] at hnp2
                exact hd2 hnp2.1.symm
          · exfalso
            rw [List.cons_append, List.cons_prefix_cons] at hnp2
            exact hd hnp2.1.symm
      · left
        rw [trimUriPref_sia_general hnp, hassoc, trimUriPref_sia_general hnp2]
    · have h4' : ¬(uriSkynetPref.isPrefixOf (s ++ List.replicate n '/') = true) := by
        rw [List.isPrefixOf_iff_prefix]
        intro hp
        by_cases hlen : 4 ≤ s.length
        · have h' : uriSkynetPref = (s ++ List.replicate n '/').take 4 :=
            List.prefix_iff_eq_take.mp hp
          rw [List.take_append_of_le_length hlen] at h'
          refine h4 ?_
          rw [List.isPrefixOf_iff_prefix, List.prefix_iff_eq_take]
          exact h'
        · rw [show uriSkynetPref = 's' :: 'i' :: 'a' :: [':'] from rfl] at hp
          rcases s with _ | ⟨a, _ | ⟨b, _ | ⟨c, _ | ⟨e, s4⟩⟩⟩⟩
          · rw [List.nil_append] at hp
            exact not_cons_prefix_replicate (by decide) n hp
          · rw [List.cons_append, List.nil_append, List.cons_prefix_cons] at hp
            exact not_cons_prefix_replicate (by decide) n hp.2
          · rw [List.cons_append, List.cons_append, List.nil_append,
              List.cons_prefix_cons, List.cons_prefix_cons] at hp
            exact not_cons_prefix_replicate (by decide) n hp.2.2
          · rw [List.cons_append, List.cons_append, List.cons_append, List.nil_append,
              List.cons_prefix_cons, List.cons_prefix_cons, List.cons_prefix_cons] at hp
            exact not_cons_prefix_replicate (by decide) n hp.2.2.2
          · exfalso
            simp at hlen
      have h6' : ¬((uriSkynetPref ++ ['/', '/']).isPrefixOf
          (s ++ List.replicate n '/') = true) := by
        intro hp
        refine h4' ?_
        rw [List.isPrefixOf_iff_prefix] at hp ⊢
        exact (List.prefix_append uriSkynetPref ['/', '/']).trans hp
      left
      unfold trimUriPref
      rw [if_neg h6', if_neg h4', if_neg h6, if_neg h4]

theorem matchDirect_replicate (k : Nat) : matchDirect (List.replicate k '/') = none := by
  unfold matchDirect
  rw [if_neg]
  rintro ⟨h1, h2⟩
  cases k with
  | zero => simp at h1
  | succ m =>
    rw [List.all_eq_true] at h2
    exact absurd (h2 '/' (by simp)) (by decide)

/-- A prefix-trimmed all-slash address parses to null in the non-subdomain
core: neither matcher accepts a string of slashes. -/
theorem parseAfterTrim_replicate (k : Nat) (opts : ParseOpts) :
    parseAfterTrim (List.replicate k '/') opts = ParseOut.nullRes := by
  have htrim : trimSuffix (urlPathname (List.replicate k '/')) '/' = [] := by
    unfold urlPathname
    rw [takeWhile_eq_self_of_all fun c hc => by
      rw [List.eq_of_mem_replicate hc]
      decide]
    rw [splitScheme_eq_none_of_empty (by rw [takeWhile_scheme_replicate]; rfl)]
    rcases k with _ | _ | m
    · rfl
    · rfl
    · rw [List.replicate_succ, List.replicate_succ]
      show trimSuffix ((List.replicate m '/').dropWhile (fun x => decide (x ≠ '/'))) '/' = []
      rw [dropWhile_ne_slash_replicate, trimSuffix_replicate]
  unfold parseAfterTrim
  rw [matchDirect_replicate, htrim]
  rfl

/-- Inversion for a successful direct skylink match. -/
theorem matchDirect_inv {t m : List Char} (h : matchDirect t = some m) :
    t.length = 46 ∧ (∀ c ∈ t, isSkylinkChar c = true) ∧ m = t := by
  unfold matchDirect at h
  by_cases hc : t.length = 46 ∧ t.all isSkylinkChar
  · rw [if_pos hc] at h
    cases h
    exact ⟨hc.1, List.all_eq_true.mp hc.2, rfl⟩
  · rw [if_neg hc] at h
    exact absurd h (by simp)

/-- Appending trailing slashes to a query-free and fragment-free prefix-
trimmed address does not change the parse outcome, for any legal option bag. -/
theorem parseAfterTrim_append_slashes {t : List Char} (n : Nat)
    (hq : ∀ c ∈ t, (c ≠ '?' && c ≠ '#') = true) (opts : ParseOpts)
    (hcombo : ¬(opts.includePath = true ∧ opts.onlyPath = true)) :
    parseAfterTrim (t ++ List.replicate n '/') opts = parseAfterTrim t opts := by
  cases n with
  | zero => simp
  | succ n0 =>
    have hdir2 : matchDirect (t ++ List.replicate (n0 + 1) '/') = none :=
      matchDirect_append_slashes (by omega)
    have hpath_eq : trimSuffix (urlPathname (t ++ List.replicate (n0 + 1) '/')) '/' =
        trimSuffix (urlPathname t) '/' := trimSuffix_urlPathname_append_slashes _ hq
    rcases hdir : matchDirect t with _ | m
    · unfold parseAfterTrim
      rw [hdir2, hdir, hpath_eq]
    · obtain ⟨hlen46, hallsk, hmt⟩ := matchDirect_inv hdir
      have hmt2 : t = m := hmt.symm
      subst hmt2
      have hup : urlPathname (t ++ List.replicate (n0 + 1) '/') =
          t ++ List.replicate (n0 + 1) '/' := by
        unfold urlPathname
        rw [takeWhile_eq_self_of_all fun c hc => by
          rcases List.mem_append.mp hc with h | h
          · exact hq c h
          · rw [List.eq_of_mem_replicate h]
            decide]
        rw [splitScheme_skylink hallsk (Or.inr (by rw [List.replicate_succ]; rfl))]
        obtain ⟨c0, c1, c2, c3, t1, rfl⟩ := exists_four_cons (by omega : 4 ≤ t.length)
        have hc0 : c0 ≠ '/' := (skylinkChar_ne (hallsk c0 (by simp))).2.1
        split
        · rename_i rest2 heq
          exact absurd heq (by simp)
        · rename_i rest h1 heq
          exact absurd heq (by simp)
        · split
          · rename_i rest2 heq
            rw [List.cons_append, List.cons.injEq] at heq
            exact absurd heq.1 hc0
          · rfl
      have htr : trimSuffix (t ++ List.replicate (n0 + 1) '/') '/' = t := by
        rw [trimSuffix_append_replicate]
        exact trimSuffix_of_getLast (getLast_skylink hallsk)
      have hmp : matchPathname t = some (t, []) := by
        have h : matchPathname (t ++ []) = some (t, []) :=
          matchPathname_of_skylink hlen46 hallsk (Or.inl rfl)
        rwa [List.append_nil] at h
      have htfs : trimForwardSlash t = t := by
        refine trimForwardSlash_of ?_ (getLast_skylink hallsk)
        cases t with
        | nil => exact Or.inl rfl
        | cons c t1 =>
          refine Or.inr ?_
          rw [List.headD_cons]
          exact (skylinkChar_ne (hallsk c (by simp))).2.1
      unfold parseAfterTrim
      rw [hdir2, hdir]
      rw [show trimSuffix (urlPathname (t ++ List.replicate (n0 + 1) '/')) '/' = t from by
        rw [hup, htr]]
      rw [hmp, htfs]
      by_cases hip : opts.includePath = true
      · have hop : opts.onlyPath = false := by
          cases hw : opts.onlyPath
          · rfl
          · exact absurd ⟨hip, hw⟩ hcombo
        rw [hip, hop]
        rfl
      · have hip' : opts.includePath = false := by simpa using hip
        rw [hip']
        by_cases hop : opts.onlyPath = true
        · rw [hop]
          rfl
        · have hop' : opts.onlyPath = false := by simpa using hop
          rw [hop']
          rfl

theorem trimSuffix_getLast_ne (l : List Char) (c : Char) :
    (trimSuffix l c).getLast? ≠ some c := by
  unfold trimSuffix
  rw [List.getLast?_reverse]
  cases hd : l.reverse.dropWhile (· == c) with
  | nil => simp
  | cons a t =>
    obtain ⟨_, hac⟩ := dropWhile_cons_of hd
    rw [List.head?_cons]
    intro h
    rw [Option.some.injEq] at h
    rw [h] at hac
    simp at hac

theorem getLast?_dropWhile (p : Char → Bool) (l : List Char) :
    l.dropWhile p = [] ∨ (l.dropWhile p).getLast? = l.getLast? := by
  induction l with
  | nil => exact Or.inl rfl
  | cons c t ih =>
    by_cases hc : p c
    · rw [List.dropWhile_cons, if_pos hc]
      by_cases ht : t = []
      · subst ht
        exact Or.inl rfl
      · rcases ih with h | h
        · exact Or.inl h
        · exact Or.inr (h.trans (getLast?_cons_of_ne c ht).symm)
    · have hcf : p c = false := by simpa using hc
      rw [dropWhile_cons_false hcf]
      exact Or.inr rfl

theorem trimForwardSlash_headD (l : List Char) :
    (trimForwardSlash l).headD ' ' ≠ '/' := by
  unfold trimForwardSlash trimHead
  cases hd : (trimSuffix l '/').dropWhile (· == '/') with
  | nil => decide
  | cons a t =>
    obtain ⟨_, hac⟩ := dropWhile_cons_of hd
    rw [List.headD_cons]
    intro h
    rw [h] at hac
    simp at hac

theorem trimForwardSlash_getLast (l : List Char) :
    (trimForwardSlash l).getLast? ≠ some '/' := by
  unfold trimForwardSlash trimHead
  rcases getLast?_dropWhile (· == '/') (trimSuffix l '/') with h | h
  · rw [h]
    simp
  · rw [h]
    exact trimSuffix_getLast_ne l '/'

theorem mem_trimUriPref {c : Char} {l pre : List Char} (h : c ∈ trimUriPref l pre) :
    c ∈ l := by
  unfold trimUriPref at h
  split at h
  · exact List.mem_of_mem_drop h
  · split at h
    · exact List.mem_of_mem_drop h
    · exact h

/-- C10: in every non-fromSubdomain mode, trailing slashes appended to the end
of the path of a query-free and fragment-free input do not change the result
of parseSkylink, and an includePath result never begins or ends with '/'. -/
theorem c10_trailing_slashes (opts : ParseOpts) (s : List Char) (n : Nat)
    (hsub : opts.fromSubdomain = false)
    (hq : ∀ c ∈ s, c ≠ '?' ∧ c ≠ '#') :
    parseSkylink (s ++ List.replicate n '/') opts = parseSkylink s opts ∧
    (∀ r, parseSkylink s { includePath := true } = ParseOut.found r →
      r.headD ' ' ≠ '/' ∧ r.getLast? ≠ some '/') := by
  constructor
  · by_cases hio : (opts.includePath && opts.onlyPath) = true
    · unfold parseSkylink
      rw [hio]
      rfl
    · have hio' : (opts.includePath && opts.onlyPath) = false := by simpa using hio
      have hif : (opts.includePath && opts.fromSubdomain) = false := by
        rw [hsub, Bool.and_false]
      unfold parseSkylink
      rw [hio', hif, hsub]
      show parseAfterTrim (trimUriPref (s ++ List.replicate n '/') uriSkynetPref) opts =
        parseAfterTrim (trimUriPref s uriSkynetPref) opts
      rcases trimUriPref_append_slashes s n with h | ⟨k, m, hk, hm⟩
      · rw [h]
        refine parseAfterTrim_append_slashes n ?_ opts ?_
        · intro c hc
          obtain ⟨h1, h2⟩ := hq c (mem_trimUriPref hc)
          simp [h1, h2]
        · rintro ⟨h1, h2⟩
          rw [h1, h2] at hio
          exact hio rfl
      · rw [hk, hm, parseAfterTrim_replicate, parseAfterTrim_replicate]
  · intro r hr
    replace hr : parseAfterTrim (trimUriPref s uriSkynetPref)
        { includePath := true } = ParseOut.found r := hr
    unfold parseAfterTrim at hr
    rcases hdir : matchDirect (trimUriPref s uriSkynetPref) with _ | m
    · rw [hdir] at hr
      rcases hmp : matchPathname
          (trimSuffix (urlPathname (trimUriPref s uriSkynetPref)) '/') with _ | ⟨m1, m2⟩
      · rw [hmp] at hr
        exact absurd hr (by simp)
      · rw [hmp] at hr
        replace hr : ParseOut.found (trimForwardSlash
            (trimSuffix (urlPathname (trimUriPref s uriSkynetPref)) '/')) =
            ParseOut.found r := hr
        rw [ParseOut.found.injEq] at hr
        rw [← hr]
        exact ⟨trimForwardSlash_headD _, trimForwardSlash_getLast _⟩
    · rw [hdir] at hr
      obtain ⟨hlen46, hallsk, rfl⟩ := matchDirect_inv hdir
      replace hr : ParseOut.found (trimUriPref s uriSkynetPref) = ParseOut.found r := hr
      rw [ParseOut.found.injEq] at hr
      rw [← hr]
      constructor
      · cases ht : trimUriPref s uriSkynetPref with
        | nil =>
          rw [ht] at hlen46
          simp at hlen46
        | cons c t1 =>
          rw [List.headD_cons]
          refine (skylinkChar_ne (hallsk c ?_)).2.1
          rw [ht]
          simp
      · exact getLast_skylink hallsk

/-- C10 witness: a concrete URL with two trailing slashes parses like the
same URL without them in default mode, and a concrete includePath result has
no leading or trailing slash. -/
theorem c10_trailing_slashes_witness :
    parseSkylink ("https://siasky.net/".data ++ testSkylink ++ "/foo".data ++
      List.replicate 2 '/') {} =
      parseSkylink ("https://siasky.net/".data ++ testSkylink ++ "/foo".data) {} ∧
    ∀ r, parseSkylink ("https://siasky.net/".data ++ testSkylink ++ "/foo".data)
        { includePath := true } = ParseOut.found r →
      r.headD ' ' ≠ '/' ∧ r.getLast? ≠ some '/' :=
  c10_trailing_slashes {} ("https://siasky.net/".data ++ testSkylink ++ "/foo".data) 2
    rfl (by decide)

/-! ## URL composition (download.ts getSkylinkUrl and its dependencies) -/

/-- The uriUnescaped character class of the ECMAScript builtin
encodeURIComponent: ASCII letters, digits, and - _ . ! ~ * ' ( ). -/
def uriUnescaped (c : Char) : Bool :=
  c.isAlpha || c.isDigit || c == '-' || c == '_' || c == '.' || c == '!' || c == '~' ||
    c == '*' || c == Char.ofNat 39 || c == '(' || c == ')'

/-- Upper-case hexadecimal digit, as used by encodeURIComponent escapes. -/
def hexDigitUpper (n : Nat) : Char :=
  if n < 10 then Char.ofNat (48 + n) else Char.ofNat (55 + n)

/-- UTF-8 encoding of one code point, at the code-point level (the builtin
works on UTF-16 units but pairs surrogates back into code points, and a Lean
Char is a code point). -/
def utf8Bytes (c : Char) : List Nat :=
  if c.toNat < 128 then [c.toNat]
  else if c.toNat < 2048 then [192 + c.toNat / 64, 128 + c.toNat % 64]
  else if c.toNat < 65536 then
    [224 + c.toNat / 4096, 128 + c.toNat / 64 % 64, 128 + c.toNat % 64]
  else [240 + c.toNat / 262144, 128 + c.toNat / 4096 % 64, 128 + c.toNat / 64 % 64,
    128 + c.toNat % 64]

/-- Percent-escape of one character: each UTF-8 byte as % plus two upper-case
hex digits. -/
def escChar (c : Char) : List Char :=
  (utf8Bytes c).foldr
    (fun b acc => '%' :: hexDigitUpper (b / 16) :: hexDigitUpper (b % 16) :: acc) []

/-- The ECMAScript builtin encodeURIComponent: characters of the uriUnescaped
class pass through, every other character is percent-escaped byte by byte. -/
def encodeURIComponent : List Char → List Char
  | [] => []
  | c :: rest => (if uriUnescaped c then [c] else escChar c) ++ encodeURIComponent rest

/-- JS String.prototype.split with a one-character separator: the list of
(possibly empty) chunks between separators; the empty string gives one empty
chunk. -/
def splitChar (sep : Char) : List Char → List (List Char)
  | [] => [[]]
  | c :: rest =>
      if c = sep then [] :: splitChar sep rest
      else
        match splitChar sep rest with
        | s :: ss => (c :: s) :: ss
        | [] => [[c]]

/-- JS Array.prototype.join with a one-character separator. -/
def joinSep (sep : Char) : List (List Char) → List Char
  | [] => []
  | [a] => a
  | a :: b :: rest => a ++ sep :: joinSep sep (b :: rest)

/-- The path treatment of getSkylinkUrl (download.ts lines 82-85): split on
'/', percent-encode each element with encodeURIComponent, rejoin with '/'. -/
def encodePath (p : List Char) : List Char :=
  joinSep '/' ((splitChar '/' p).map encodeURIComponent)

/-- The scheme part matched by url-join's `^([^/:]+):\/*` replaces: the
leading run without '/' or ':' (nonempty), the ':', and the remainder after
the colon. -/
def protoSplit (a : List Char) : Option (List Char × List Char) :=
  if (a.takeWhile fun c => c ≠ '/' && c ≠ ':') = [] then none
  else
    match a.drop (a.takeWhile fun c => c ≠ '/' && c ≠ ':').length with
    | ':' :: r => some ((a.takeWhile fun c => c ≠ '/' && c ≠ ':'), r)
    | _ => none

/-- url-join's `^file:\/\/\//` test on the first component. -/
def isFilePre (a : List Char) : Bool := "file:///".data.isPrefixOf a

/-- url-join's protocol normalization of the first component: collapse the
slashes after "scheme:" to exactly two (three for file URLs). -/
def normalizeProto (a : List Char) : List Char :=
  match protoSplit a with
  | some (s, r) =>
      if isFilePre a then s ++ ":///".data ++ r.dropWhile (· == '/')
      else s ++ "://".data ++ r.dropWhile (· == '/')
  | none => a

/-- url-join's `^[^/:]+:\/*$` test: the first component is a bare protocol
and gets merged with the next one. -/
def protoOnly (a : List Char) : Bool :=
  match protoSplit a with
  | some (_, r) => r.all (· == '/')
  | none => false

/-- url-join's `[\/]+$` → "/" replace on the last component: collapse a
trailing run of slashes to a single one. -/
def collapseTrailSlashes (l : List Char) : List Char :=
  if l.getLast? = some '/' then trimSuffix l '/' ++ ['/'] else l

/-- url-join's `\/(\?|&|#[^!])` → `$1` global replace: drop a slash that
stands right before a '?', a '&', or a '#' not followed by '!'. -/
def fixSlashQuery : List Char → List Char
  | [] => []
  | c :: rest =>
      if c = '/' then
        match rest with
        | '?' :: r2 => '?' :: fixSlashQuery r2
        | '&' :: r2 => '&' :: fixSlashQuery r2
        | '#' :: d :: r2 =>
            if d = '!' then '/' :: '#' :: fixSlashQuery (d :: r2)
            else '#' :: d :: fixSlashQuery r2
        | r => c :: fixSlashQuery r
      else c :: fixSlashQuery rest

/-- Helper for url-join's final parameter fixup: every '?' becomes '&'. -/
def ampAfter : List Char → List Char
  | [] => []
  | c :: rest => (if c = '?' then '&' else c) :: ampAfter rest

/-- url-join's final fixup: keep the first '?', turn every later one into
'&' (the split-on-'?' / rejoin-with-'&' step of the library). -/
def fixQueryAmp : List Char → List Char
  | [] => []
  | c :: rest => if c = '?' then c :: ampAfter rest else c :: fixQueryAmp rest

/-- Two-argument url-join (the url-join dependency, as invoked pairwise by
makeUrl's reduce): merge a bare protocol first component into the second,
normalize the protocol slashes, strip the first component's trailing and the
second component's leading slashes (skipping components that are empty
strings), join with '/', then apply the slash-before-query and duplicate-'?'
fixups. -/
def urljoin2 (a b : List Char) : List Char :=
  fixQueryAmp (fixSlashQuery (
    if protoOnly a then
      (if normalizeProto (a ++ b) = [] then []
       else collapseTrailSlashes (normalizeProto (a ++ b)))
    else
      joinSep '/'
        ((if normalizeProto a = [] then [] else [trimSuffix (normalizeProto a) '/']) ++
         (if b = [] then [] else [collapseTrailSlashes (trimHead b '/')]))))

/-- makeUrl from utils.ts: reduce the argument list with urljoin (no initial
value; JS reduce throws on an empty array, which no call site produces, so
the empty case is arbitrary here). -/
def makeUrl : List (List Char) → List Char
  | [] => []
  | a :: rest => rest.foldl urljoin2 a

/-- addUrlQuery from utils.ts, through the url-parse dependency, for URLs
without an existing query or fragment (every URL the theorems below feed it):
setting an empty query map leaves the URL unchanged, and a nonempty one is
appended as ?key=value pairs joined with '&'. -/
def addUrlQuery (url : List Char) (query : List (List Char × List Char)) : List Char :=
  if query = [] then url
  else url ++ '?' :: joinSep '&' (query.map fun kv => kv.1 ++ '=' :: kv.2)

/-- addSubdomain from utils.ts, through the WHATWG URL class, for absolute
scheme://host[/path] URLs with lowercase hosts and no userinfo, port, query
or fragment (its only use feeds it the portal URL): prepend the label and a
dot to the hostname; the URL serializer's lone root slash is dropped again
by the source's endsWith("/") check. -/
def addSubdomain (url sub : List Char) : List Char :=
  match splitScheme url with
  | some ('/' :: '/' :: rest) =>
      if rest.dropWhile (· ≠ '/') = [] ∨ rest.dropWhile (· ≠ '/') = ['/'] then
        url.takeWhile isSchemeChar ++ "://".data ++ sub ++ '.' :: rest.takeWhile (· ≠ '/')
      else url.takeWhile isSchemeChar ++ "://".data ++ sub ++ '.' :: rest
  | _ => url

/-- Options of getSkylinkUrl (download.ts), with the defaults of
defaultDownloadOptions; an empty path stands for the absent/falsy JS path. -/
structure SkylinkUrlOpts where
  endpointPath : List Char := "/".data
  path : List Char := []
  subdomain : Bool := false
  download : Bool := false
  query : List (List Char × List Char) := []

/-- getSkylinkUrl from download.ts: optionally percent-encode the path option
per segment; in subdomain mode put the base32 form of the parsed skylink in
front of the portal host and append the skylink's own path; otherwise join
portal URL, endpoint path, the parsed skylink (with its path) and the encoded
path option; finally attach the query (plus attachment=true when
downloading). A null parse or a thrown conversion is `none`. -/
def getSkylinkUrl (portalUrl : List Char) (skylinkStr : List Char)
    (opts : SkylinkUrlOpts) : Option (List Char) :=
  if opts.subdomain then
    match parseSkylink skylinkStr {} with
    | ParseOut.found sk =>
      match convertSkylinkToBase32 sk, parseSkylink skylinkStr { onlyPath := true } with
      | some sk32, ParseOut.found skPath =>
          some (addUrlQuery
            (makeUrl [addSubdomain portalUrl sk32, skPath,
              if opts.path = [] then [] else encodePath opts.path])
            (if opts.download then opts.query ++ [("attachment".data, "true".data)]
             else opts.query))
      | _, _ => none
    | _ => none
  else
    match parseSkylink skylinkStr { includePath := true } with
    | ParseOut.found sk =>
        some (addUrlQuery
          (makeUrl [portalUrl, opts.endpointPath, sk,
            if opts.path = [] then [] else encodePath opts.path])
          (if opts.download then opts.query ++ [("attachment".data, "true".data)]
           else opts.query))
    | _ => none

theorem char_toNat_lt (c : Char) : c.toNat < 1114112 := by
  rcases c with ⟨v, hv⟩
  have hv2 : v.toNat < 55296 ∨ (57343 < v.toNat ∧ v.toNat < 1114112) := hv
  show v.toNat < 1114112
  omega

theorem utf8Bytes_lt {c : Char} (b : Nat) (hb : b ∈ utf8Bytes c) : b < 256 := by
  have h1 := char_toNat_lt c
  unfold utf8Bytes at hb
  split at hb
  · rename_i h2
    rw [List.mem_singleton] at hb
    omega
  · split at hb
    · rename_i h2 h3
      rcases List.mem_cons.mp hb with rfl | hb2
      · omega
      · rw [List.mem_singleton] at hb2
        omega
    · split at hb
      · rename_i h2 h3 h4
        rcases List.mem_cons.mp hb with rfl | hb2
        · omega
        rcases List.mem_cons.mp hb2 with rfl | hb3
        · omega
        · rw [List.mem_singleton] at hb3
          omega
      · rename_i h2 h3 h4
        rcases List.mem_cons.mp hb with rfl | hb2
        · omega
        rcases List.mem_cons.mp hb2 with rfl | hb3
        · omega
        rcases List.mem_cons.mp hb3 with rfl | hb4
        · omega
        · rw [List.mem_singleton] at hb4
          omega

theorem utf8Bytes_ne_nil (c : Char) : utf8Bytes c ≠ [] := by
  unfold utf8Bytes
  split
  · simp
  · split
    · simp
    · split
      · simp
      · simp

theorem uriUnescaped_safe {c : Char} (h : uriUnescaped c = true) :
    c ≠ '?' ∧ c ≠ '&' ∧ c ≠ '#' ∧ c ≠ '/' := by
  refine ⟨?_, ?_, ?_, ?_⟩ <;> (intro he; subst he; exact absurd h (by decide))

theorem skylinkChar_ne_amp {c : Char} (h : isSkylinkChar c = true) : c ≠ '&' := by
  intro he
  subst he
  exact absurd h (by decide)

theorem mem_escFold {d : Char} : ∀ {bs : List Nat},
    d ∈ bs.foldr
      (fun b acc => '%' :: hexDigitUpper (b / 16) :: hexDigitUpper (b % 16) :: acc) [] →
    d = '%' ∨ ∃ b, b ∈ bs ∧ (d = hexDigitUpper (b / 16) ∨ d = hexDigitUpper (b % 16)) := by
  intro bs
  induction bs with
  | nil =>
    intro h
    simp at h
  | cons b bs2 ih =>
    intro h
    rw [List.foldr_cons] at h
    rcases List.mem_cons.mp h with rfl | h2
    · exact Or.inl rfl
    rcases List.mem_cons.mp h2 with rfl | h3
    · exact Or.inr ⟨b, by simp, Or.inl rfl⟩
    rcases List.mem_cons.mp h3 with rfl | h4
    · exact Or.inr ⟨b, by simp, Or.inr rfl⟩
    rcases ih h4 with h5 | ⟨b2, hb2, hd2⟩
    · exact Or.inl h5
    · exact Or.inr ⟨b2, List.mem_cons_of_mem _ hb2, hd2⟩

theorem mem_escChar {c d : Char} (h : d ∈ escChar c) :
    d = '%' ∨ ∃ b, b ∈ utf8Bytes c ∧
      (d = hexDigitUpper (b / 16) ∨ d = hexDigitUpper (b % 16)) :=
  mem_escFold h

theorem escChar_ne_nil (c : Char) : escChar c ≠ [] := by
  unfold escChar
  cases hb : utf8Bytes c with
  | nil => exact absurd hb (utf8Bytes_ne_nil c)
  | cons b bs => simp

theorem mem_encodeURIComponent {d : Char} : ∀ {s : List Char},
    d ∈ encodeURIComponent s → d ≠ '?' ∧ d ≠ '&' ∧ d ≠ '#' ∧ d ≠ '/' := by
  intro s
  induction s with
  | nil =>
    intro h
    simp [encodeURIComponent] at h
  | cons c rest ih =>
    intro h
    have h' : d ∈ (if uriUnescaped c then [c] else escChar c) ++ encodeURIComponent rest := h
    rcases List.mem_append.mp h' with h1 | h1
    · by_cases hu : uriUnescaped c
      · rw [if_pos hu] at h1
        have hdc : d = c := by simpa using h1
        subst hdc
        exact uriUnescaped_safe hu
      · rw [if_neg hu] at h1
        rcases mem_escChar h1 with rfl | ⟨b, hb, hd⟩
        · exact ⟨by decide, by decide, by decide, by decide⟩
        · have hblt : b < 256 := utf8Bytes_lt b hb
          have hsafe : ∀ n < 16, hexDigitUpper n ≠ '?' ∧ hexDigitUpper n ≠ '&' ∧
              hexDigitUpper n ≠ '#' ∧ hexDigitUpper n ≠ '/' := by decide
          rcases hd with rfl | rfl
          · exact hsafe _ (by omega)
          · exact hsafe _ (by omega)
    · exact ih h1

theorem encodeURIComponent_ne_nil {s : List Char} (h : s ≠ []) :
    encodeURIComponent s ≠ [] := by
  cases s with
  | nil => exact absurd rfl h
  | cons c rest =>
    show (if uriUnescaped c then [c] else escChar c) ++ encodeURIComponent rest ≠ []
    intro hem
    rw [List.append_eq_nil] at hem
    by_cases hu : uriUnescaped c
    · rw [if_pos hu] at hem
      exact absurd hem.1 (by simp)
    · rw [if_neg hu] at hem
      exact escChar_ne_nil c hem.1

theorem encodeURIComponent_head {c : Char} (rest : List Char) :
    (encodeURIComponent (c :: rest)).headD ' ' ≠ '/' := by
  show ((if uriUnescaped c then [c] else escChar c) ++ encodeURIComponent rest).headD ' '
    ≠ '/'
  by_cases hu : uriUnescaped c
  · rw [if_pos hu, List.singleton_append, List.headD_cons]
    exact (uriUnescaped_safe hu).2.2.2
  · rw [if_neg hu]
    cases hb : utf8Bytes c with
    | nil => exact absurd hb (utf8Bytes_ne_nil c)
    | cons b bs =>
      unfold escChar
      rw [hb, List.foldr_cons, List.cons_append, List.headD_cons]
      decide

theorem splitChar_ne_nil (sep : Char) (l : List Char) : splitChar sep l ≠ [] := by
  cases l with
  | nil => simp [splitChar]
  | cons a rest =>
    unfold splitChar
    by_cases ha : a = sep
    · rw [if_pos ha]
      simp
    · rw [if_neg ha]
      cases splitChar sep rest with
      | nil => simp
      | cons s ss => simp

theorem splitChar_head {sep a : Char} (rest : List Char) (ha : a ≠ sep) :
    ∃ s ss, splitChar sep (a :: rest) = (a :: s) :: ss := by
  unfold splitChar
  rw [if_neg ha]
  rcases hsc : splitChar sep rest with _ | ⟨s0, ss⟩
  · exact absurd hsc (splitChar_ne_nil _ _)
  · exact ⟨s0, ss, rfl⟩

theorem mem_splitChar {sep : Char} : ∀ {l s : List Char}, s ∈ splitChar sep l →
    ∀ {c : Char}, c ∈ s → c ∈ l ∧ c ≠ sep := by
  intro l
  induction l with
  | nil =>
    intro s hs c hc
    have hs2 : s ∈ [([] : List Char)] := hs
    rw [List.mem_singleton] at hs2
    subst hs2
    simp at hc
  | cons a rest ih =>
    intro s hs c hc
    unfold splitChar at hs
    by_cases ha : a = sep
    · rw [if_pos ha] at hs
      rcases List.mem_cons.mp hs with rfl | hs2
      · simp at hc
      · obtain ⟨h1, h2⟩ := ih hs2 hc
        exact ⟨List.mem_cons_of_mem a h1, h2⟩
    · rw [if_neg ha] at hs
      rcases hsc : splitChar sep rest with _ | ⟨s0, ss⟩
      · exact absurd hsc (splitChar_ne_nil _ _)
      · rw [hsc] at hs
        rcases List.mem_cons.mp hs with rfl | hs2
        · rcases List.mem_cons.mp hc with rfl | hc2
          · exact ⟨by simp, ha⟩
          · obtain ⟨h1, h2⟩ := ih (by rw [hsc]; exact List.mem_cons_self s0 ss) hc2
            exact ⟨List.mem_cons_of_mem a h1, h2⟩
        · obtain ⟨h1, h2⟩ := ih (by rw [hsc]; exact List.mem_cons_of_mem s0 hs2) hc
          exact ⟨List.mem_cons_of_mem a h1, h2⟩

theorem splitChar_last {sep : Char} : ∀ {l : List Char}, l ≠ [] →
    l.getLast? ≠ some sep →
    ∃ s, (splitChar sep l).getLast? = some s ∧ s ≠ [] := by
  intro l
  induction l with
  | nil =>
    intro h
    exact absurd rfl h
  | cons a rest ih =>
    intro hne hl
    by_cases hr : rest = []
    · subst hr
      have ha : a ≠ sep := by simpa using hl
      refine ⟨[a], ?_, by simp⟩
      unfold splitChar
      rw [if_neg ha]
      rfl
    · have hl' : rest.getLast? ≠ some sep := by
        rwa [getLast?_cons_of_ne a hr] at hl
      obtain ⟨s, hs, hsne⟩ := ih hr hl'
      by_cases ha : a = sep
      · subst ha
        refine ⟨s, ?_, hsne⟩
        unfold splitChar
        rw [if_pos rfl]
        rw [getLast?_cons_of_ne _ (splitChar_ne_nil _ _)]
        exact hs
      · unfold splitChar
        rw [if_neg ha]
        rcases hsc : splitChar sep rest with _ | ⟨s0, ss⟩
        · exact absurd hsc (splitChar_ne_nil _ _)
        · by_cases hss : ss = []
          · subst hss
            refine ⟨a :: s0, ?_, by simp⟩
            rfl
          · refine ⟨s, ?_, hsne⟩
            rw [hsc] at hs
            rw [getLast?_cons_of_ne _ hss] at hs ⊢
            exact hs

theorem joinSep_pair (sep : Char) (a b : List Char) :
    joinSep sep [a, b] = a ++ sep :: b := rfl

theorem mem_joinSep {sep c : Char} : ∀ {parts : List (List Char)},
    c ∈ joinSep sep parts → c = sep ∨ ∃ s, s ∈ parts ∧ c ∈ s := by
  intro parts
  induction parts with
  | nil =>
    intro h
    simp [joinSep] at h
  | cons a t ih =>
    intro h
    cases t with
    | nil =>
      have h' : c ∈ a := h
      exact Or.inr ⟨a, by simp, h'⟩
    | cons b t2 =>
      have h' : c ∈ a ++ sep :: joinSep sep (b :: t2) := h
      rcases List.mem_append.mp h' with h1 | h1
      · exact Or.inr ⟨a, by simp, h1⟩
      · rcases List.mem_cons.mp h1 with h2 | h2
        · exact Or.inl h2
        · rcases ih h2 with h3 | ⟨s, hs1, hs2⟩
          · exact Or.inl h3
          · exact Or.inr ⟨s, List.mem_cons_of_mem a hs1, hs2⟩

theorem joinSep_ne_nil {sep : Char} {s : List Char} (parts : List (List Char))
    (hne : s ≠ []) : joinSep sep (s :: parts) ≠ [] := by
  cases parts with
  | nil => exact hne
  | cons b t =>
    show s ++ sep :: joinSep sep (b :: t) ≠ []
    simp

theorem joinSep_head_eq {sep : Char} {s : List Char} (parts : List (List Char))
    (hne : s ≠ []) : (joinSep sep (s :: parts)).headD ' ' = s.headD ' ' := by
  cases parts with
  | nil => rfl
  | cons b t =>
    cases s with
    | nil => exact absurd rfl hne
    | cons c s2 =>
      show ((c :: s2) ++ sep :: joinSep sep (b :: t)).headD ' ' = _
      rw [List.cons_append, List.headD_cons, List.headD_cons]

theorem joinSep_getLast {sep : Char} : ∀ {parts : List (List Char)} {s : List Char},
    parts.getLast? = some s → s ≠ [] →
    (joinSep sep parts).getLast? = s.getLast? := by
  intro parts
  induction parts with
  | nil =>
    intro s h
    simp at h
  | cons a t ih =>
    intro s h hs
    cases t with
    | nil =>
      have has : a = s := by simpa using h
      subst has
      rfl
    | cons b t2 =>
      rw [List.getLast?_cons_cons] at h
      show (a ++ sep :: joinSep sep (b :: t2)).getLast? = s.getLast?
      rw [List.getLast?_append_of_ne_nil _ (by simp)]
      have hjy : joinSep sep (b :: t2) ≠ [] := by
        cases t2 with
        | nil =>
          have hbs : b = s := by simpa using h
          show b ≠ []
          rw [hbs]
          exact hs
        | cons d t3 =>
          show b ++ sep :: joinSep sep (d :: t3) ≠ []
          simp
      rw [getLast?_cons_of_ne sep hjy]
      exact ih h hs

theorem fixSlashQuery_of_safe (l : List Char) :
    (∀ c ∈ l, c ≠ '?' ∧ c ≠ '&' ∧ c ≠ '#') → fixSlashQuery l = l := by
  induction l using fixSlashQuery.induct with
  | case1 =>
    intro h
    rfl
  | case2 r2 ih =>
    intro h
    exact absurd rfl (h '?' (by simp)).1
  | case3 r2 ih =>
    intro h
    exact absurd rfl (h '&' (by simp)).2.1
  | case4 r2 ih =>
    intro h
    exact absurd rfl (h '#' (by simp)).2.2
  | case5 d r2 hd ih =>
    intro h
    exact absurd rfl (h '#' (by simp)).2.2
  | case6 r hx1 hx2 hx3 ih =>
    intro h
    unfold fixSlashQuery
    rw [if_pos rfl]
    split
    · rename_i r2
      exact absurd rfl (hx1 r2)
    · rename_i r2
      exact absurd rfl (hx2 r2)
    · rename_i d r2
      exact absurd rfl (hx3 d r2)
    · rw [ih fun c hc => h c (List.mem_cons_of_mem '/' hc)]
  | case7 c rest hc ih =>
    intro h
    unfold fixSlashQuery
    rw [if_neg hc]
    rw [ih fun d hd => h d (List.mem_cons_of_mem c hd)]

theorem fixQueryAmp_of_safe (l : List Char) :
    (∀ c ∈ l, c ≠ '?') → fixQueryAmp l = l := by
  induction l with
  | nil =>
    intro h
    rfl
  | cons c rest ih =>
    intro h
    unfold fixQueryAmp
    rw [if_neg (h c (by simp))]
    rw [ih fun d hd => h d (List.mem_cons_of_mem c hd)]

theorem encodePath_ne_nil {p : List Char} (hp : p ≠ []) (hph : p.headD ' ' ≠ '/') :
    encodePath p ≠ [] := by
  cases p with
  | nil => exact absurd rfl hp
  | cons a rest =>
    have ha : a ≠ '/' := by simpa using hph
    obtain ⟨s, ss, hsc⟩ := splitChar_head rest ha
    unfold encodePath
    rw [hsc, List.map_cons]
    exact joinSep_ne_nil _ (encodeURIComponent_ne_nil (by simp))

theorem encodePath_head {p : List Char} (hp : p ≠ []) (hph : p.headD ' ' ≠ '/') :
    (encodePath p).headD ' ' ≠ '/' := by
  cases p with
  | nil => exact absurd rfl hp
  | cons a rest =>
    have ha : a ≠ '/' := by simpa using hph
    obtain ⟨s, ss, hsc⟩ := splitChar_head rest ha
    unfold encodePath
    rw [hsc, List.map_cons,
      joinSep_head_eq _ (encodeURIComponent_ne_nil (by simp))]
    exact encodeURIComponent_head s

theorem encodePath_getLast {p : List Char} (hp : p ≠ []) (hpl : p.getLast? ≠ some '/') :
    (encodePath p).getLast? ≠ some '/' := by
  obtain ⟨s, hgl, hsne⟩ := splitChar_last hp hpl
  unfold encodePath
  rw [joinSep_getLast (by rw [List.getLast?_map, hgl]; rfl)
    (encodeURIComponent_ne_nil hsne)]
  intro hmem
  exact (mem_encodeURIComponent (List.mem_of_mem_getLast? hmem)).2.2.2 rfl

theorem encodePath_safe {p : List Char} : ∀ c ∈ encodePath p,
    c ≠ '?' ∧ c ≠ '&' ∧ c ≠ '#' := by
  intro c hc
  rcases mem_joinSep hc with rfl | ⟨s, hs, hcs⟩
  · exact ⟨by decide, by decide, by decide⟩
  · obtain ⟨s0, hs0, rfl⟩ := List.mem_map.mp hs
    have h := mem_encodeURIComponent hcs
    exact ⟨h.1, h.2.1, h.2.2.1⟩

theorem protoSplit_net_id (id : List Char) :
    protoSplit ("https://siasky.net/".data ++ id) =
      some ("https".data, "//siasky.net/".data ++ id) := by
  have htw : (("https://siasky.net/".data ++ id).takeWhile
      fun c => c ≠ '/' && c ≠ ':') = "https".data := by
    rw [takeWhile_append_of_ne_nil (by decide)]
    decide
  have hdr : ("https://siasky.net/".data ++ id).drop 5 = "://siasky.net/".data ++ id := by
    rw [List.drop_append_of_le_length (by decide)]
    rw [show List.drop 5 "https://siasky.net/".data = "://siasky.net/".data from by decide]
  unfold protoSplit
  rw [htw]
  rw [if_neg (by decide : ¬ ("https".data : List Char) = [])]
  rw [show ("https".data : List Char).length = 5 from by decide]
  rw [hdr]
  rw [show "://siasky.net/".data ++ id = ':' :: ("//siasky.net/".data ++ id) from rfl]
  rfl

theorem protoOnly_net_id (id : List Char) :
    protoOnly ("https://siasky.net/".data ++ id) = false := by
  unfold protoOnly
  rw [protoSplit_net_id]
  show ("//siasky.net/".data ++ id).all (· == '/') = false
  rw [List.all_append]
  rw [show ("//siasky.net/".data).all (· == '/') = false from by decide]
  rw [Bool.false_and]

theorem normalizeProto_net_id (id : List Char) :
    normalizeProto ("https://siasky.net/".data ++ id) =
      "https://siasky.net/".data ++ id := by
  have hfp : isFilePre ("https://siasky.net/".data ++ id) = false := by
    cases hb : isFilePre ("https://siasky.net/".data ++ id)
    · rfl
    · exfalso
      unfold isFilePre at hb
      rw [List.isPrefixOf_iff_prefix] at hb
      rw [show ("https://siasky.net/".data ++ id) = 'h' :: ("ttps://siasky.net/".data ++ id)
          from rfl,
        show ("file:///".data : List Char) = 'f' :: "ile:///".data from rfl,
        List.cons_prefix_cons] at hb
      exact absurd hb.1 (by decide)
  unfold normalizeProto
  rw [protoSplit_net_id, hfp]
  show "https".data ++ "://".data ++ (("//siasky.net/".data ++ id).dropWhile (· == '/')) =
    "https://siasky.net/".data ++ id
  rw [dropWhile_append_of_ne_nil (by decide)]
  rw [show ("//siasky.net/".data).dropWhile (· == '/') = "siasky.net/".data from by decide]
  rfl

theorem skylink_head_ne {id : List Char} (hlen : id.length = 46)
    (hid : ∀ c ∈ id, isSkylinkChar c = true) : id.headD ' ' ≠ '/' := by
  cases id with
  | nil => simp at hlen
  | cons c t =>
    rw [List.headD_cons]
    exact (skylinkChar_ne (hid c (by simp))).2.1

theorem urljoin2_portal :
    urljoin2 "https://siasky.net".data "/".data = "https://siasky.net/".data := by decide

theorem urljoin2_net_id {id : List Char} (hlen : id.length = 46)
    (hid : ∀ c ∈ id, isSkylinkChar c = true) :
    urljoin2 "https://siasky.net/".data id = "https://siasky.net/".data ++ id := by
  have hidne : id ≠ [] := by
    intro h
    rw [h] at hlen
    simp at hlen
  unfold urljoin2
  rw [if_neg (by decide : ¬ protoOnly "https://siasky.net/".data = true)]
  rw [show normalizeProto "https://siasky.net/".data = "https://siasky.net/".data from
    by decide]
  rw [if_neg (by decide : ¬ ("https://siasky.net/".data : List Char) = [])]
  rw [show trimSuffix "https://siasky.net/".data '/' = "https://siasky.net".data from
    by decide]
  rw [if_neg hidne]
  rw [trimHead_of_head (Or.inr (skylink_head_ne hlen hid))]
  rw [show collapseTrailSlashes id = id from by
    unfold collapseTrailSlashes
    rw [if_neg (getLast_skylink hid)]]
  rw [show (["https://siasky.net".data] ++ [id] : List (List Char)) =
    ["https://siasky.net".data, id] from rfl]
  have hsafe : ∀ c ∈ joinSep '/' ["https://siasky.net".data, id],
      c ≠ '?' ∧ c ≠ '&' ∧ c ≠ '#' := by
    intro c hc
    rcases mem_joinSep hc with rfl | ⟨s, hs, hcs⟩
    · exact ⟨by decide, by decide, by decide⟩
    · rcases List.mem_cons.mp hs with rfl | hs2
      · have hcon : ∀ c ∈ "https://siasky.net".data, c ≠ '?' ∧ c ≠ '&' ∧ c ≠ '#' := by
          decide
        exact hcon c hcs
      · rcases List.mem_cons.mp hs2 with rfl | hs3
        · exact ⟨(skylinkChar_ne (hid c hcs)).2.2.1, skylinkChar_ne_amp (hid c hcs),
            (skylinkChar_ne (hid c hcs)).2.2.2.1⟩
        · simp at hs3
  rw [fixSlashQuery_of_safe _ hsafe, fixQueryAmp_of_safe _ (fun c hc => (hsafe c hc).1)]
  rfl

theorem urljoin2_net_id_path {id ep : List Char} (hlen : id.length = 46)
    (hid : ∀ c ∈ id, isSkylinkChar c = true) (hepn : ep ≠ [])
    (heph : ep.headD ' ' ≠ '/') (hepl : ep.getLast? ≠ some '/')
    (hsafe : ∀ c ∈ ep, c ≠ '?' ∧ c ≠ '&' ∧ c ≠ '#') :
    urljoin2 ("https://siasky.net/".data ++ id) ep =
      ("https://siasky.net/".data ++ id) ++ '/' :: ep := by
  have hidne : id ≠ [] := by
    intro h
    rw [h] at hlen
    simp at hlen
  have hane : ("https://siasky.net/".data ++ id : List Char) ≠ [] := by simp
  have hgl : ("https://siasky.net/".data ++ id).getLast? ≠ some '/' := by
    rw [List.getLast?_append_of_ne_nil _ hidne]
    exact getLast_skylink hid
  unfold urljoin2
  rw [if_neg (show ¬ protoOnly ("https://siasky.net/".data ++ id) = true from by
    rw [protoOnly_net_id]
    simp)]
  rw [normalizeProto_net_id]
  rw [if_neg hane]
  rw [trimSuffix_of_getLast hgl]
  rw [if_neg hepn]
  rw [trimHead_of_head (Or.inr heph)]
  rw [show collapseTrailSlashes ep = ep from by
    unfold collapseTrailSlashes
    rw [if_neg hepl]]
  rw [show ([("https://siasky.net/".data ++ id)] ++ [ep] : List (List Char)) =
    [("https://siasky.net/".data ++ id), ep] from rfl]
  have hsafeAll : ∀ c ∈ joinSep '/' [("https://siasky.net/".data ++ id), ep],
      c ≠ '?' ∧ c ≠ '&' ∧ c ≠ '#' := by
    intro c hc
    rcases mem_joinSep hc with rfl | ⟨s, hs, hcs⟩
    · exact ⟨by decide, by decide, by decide⟩
    · rcases List.mem_cons.mp hs with rfl | hs2
      · rcases List.mem_append.mp hcs with h1 | h1
        · have hcon : ∀ c ∈ "https://siasky.net/".data, c ≠ '?' ∧ c ≠ '&' ∧ c ≠ '#' := by
            decide
          exact hcon c h1
        · exact ⟨(skylinkChar_ne (hid c h1)).2.2.1, skylinkChar_ne_amp (hid c h1),
            (skylinkChar_ne (hid c h1)).2.2.2.1⟩
      · rcases List.mem_cons.mp hs2 with rfl | hs3
        · exact hsafe c hcs
        · simp at hs3
  rw [fixSlashQuery_of_safe _ hsafeAll, fixQueryAmp_of_safe _ (fun c hc => (hsafeAll c hc).1)]
  rfl

theorem parseSkylink_bare_incl {id : List Char} (hlen : id.length = 46)
    (hid : ∀ c ∈ id, isSkylinkChar c = true) :
    parseSkylink id { includePath := true } = ParseOut.found id := by
  have htrim : trimUriPref id uriSkynetPref = id := by
    have h : trimUriPref (id ++ []) uriSkynetPref = id ++ [] :=
      trimUriPref_skylink_head hlen hid
    rwa [List.append_nil] at h
  show parseAfterTrim (trimUriPref id uriSkynetPref) { includePath := true } =
    ParseOut.found id
  rw [htrim]
  unfold parseAfterTrim
  rw [matchDirect_some hlen hid]
  rfl

/-- C8: with the default portal and endpoint, for every valid skylink
identifier and every path option that is nonempty and neither starts nor ends
with '/', getSkylinkUrl returns the portal URL, the identifier, and then the
path split on '/', percent-encoded per segment with encodeURIComponent, and
rejoined with '/'; and encodeURIComponent maps the segment "foo?bar" to
"foo%3Fbar", so a '?' inside a segment is percent-encoded in the URL. -/
theorem c8_path_encoding (id p : List Char) (hlen : id.length = 46)
    (hid : ∀ c ∈ id, isSkylinkChar c = true) (hp : p ≠ [])
    (hph : p.headD ' ' ≠ '/') (hpl : p.getLast? ≠ some '/') :
    getSkylinkUrl "https://siasky.net".data id { path := p } =
      some ("https://siasky.net/".data ++ id ++ '/' ::
        joinSep '/' ((splitChar '/' p).map encodeURIComponent)) ∧
    encodeURIComponent "foo?bar".data = "foo%3Fbar".data := by
  refine ⟨?_, by decide⟩
  unfold getSkylinkUrl
  rw [parseSkylink_bare_incl hlen hid]
  show some (addUrlQuery (makeUrl ["https://siasky.net".data, "/".data, id,
    if p = [] then [] else encodePath p]) []) = _
  rw [if_neg hp]
  show some (urljoin2 (urljoin2 (urljoin2 "https://siasky.net".data "/".data) id)
    (encodePath p)) = _
  rw [urljoin2_portal, urljoin2_net_id hlen hid,
    urljoin2_net_id_path hlen hid (encodePath_ne_nil hp hph) (encodePath_head hp hph)
      (encodePath_getLast hp hpl) encodePath_safe]
  rfl

/-- C8 witness: the concrete test skylink with path option "foo?bar" produces
the portal URL with "/foo%3Fbar" appended, with the '?' percent-encoded. -/
theorem c8_path_encoding_witness :
    getSkylinkUrl "https://siasky.net".data testSkylink { path := "foo?bar".data } =
      some ("https://siasky.net/".data ++ testSkylink ++ '/' ::
        joinSep '/' ((splitChar '/' "foo?bar".data).map encodeURIComponent)) ∧
    encodeURIComponent "foo?bar".data = "foo%3Fbar".data :=
  c8_path_encoding testSkylink "foo?bar".data (by decide) (by decide) (by decide)
    (by decide) (by decide)

/-! ## SkyDB (skydb.ts) -/

/-- FileType enum from skydb.ts: 0 is Invalid, 1 is PublicUnencrypted. -/
inductive FileType where
  | Invalid : FileType
  | PublicUnencrypted : FileType
deriving DecidableEq

/-- Numeric value of the FileType enum member. -/
def FileType.toNum : FileType → Nat
  | .Invalid => 0
  | .PublicUnencrypted => 1

/-- FILEID_V1 constant from skydb.ts. -/
def FILEID_V1 : Nat := 1

/-- FileID from skydb.ts. -/
structure FileID where
  version : Nat
  applicationID : List Char
  fileType : FileType
  filename : List Char

/-- NewFileID from skydb.ts. -/
def NewFileID (applicationID : List Char) (fileType : FileType)
    (filename : List Char) : FileID :=
  { version := FILEID_V1, applicationID := applicationID, fileType := fileType,
    filename := filename }

/-- Modelled from the spec: hashAll from crypto.ts (a module not present in
src/) applies a hash successively across the ordered input list; modelled as
an injective length-prefixed accumulation, which has exactly the properties
the spec attributes to the cumulative hash — deterministic, and sensitive to
the order and the exact textual form of every field. -/
def hashAll (inputs : List (List Char)) : List Nat :=
  inputs.foldl (fun acc s => acc ++ s.length :: s.map Char.toNat) []

/-- RegistryValue from registry.ts as built by setFile (skydb.ts lines
54-59). -/
structure RegistryValue where
  tweak : List Nat
  data : List Char
  revision : Nat
deriving DecidableEq

/-- The signed entry shape setFile hands to updateRegistry ({ value,
signature }) and getFile reads back (existing.value.data). -/
structure SignedRegistryEntry where
  value : RegistryValue
  signature : List Nat
deriving DecidableEq

/-- The tweak built by setFile (skydb.ts lines 47-52): hashAll over
version.toString(), applicationID.toString(), fileType.toString() (the
enum's numeric value in decimal) and filename.toString(), in that order. -/
def setFileTweak (fileID : FileID) : List Nat :=
  hashAll [Nat.toDigits 10 fileID.version, fileID.applicationID,
    Nat.toDigits 10 fileID.fileType.toNum, fileID.filename]

/-- The revision setFile submits (skydb.ts line 58):
`revision: existing ? existing.Revision++ : 0`. A JS post-increment evaluates
to the OLD value, so an existing entry's revision is submitted unchanged
(charitably reading `existing.Revision` as the fetched entry's revision —
the entry the source reads back actually stores it at
`existing.value.revision`). -/
def setFileRevision (existing : Option SignedRegistryEntry) : Nat :=
  match existing with
  | none => 0
  | some e => e.value.revision

/-- The registry value setFile builds and submits (skydb.ts lines 54-59)
from the file ID, the skylink of the uploaded file, and the fetched current
entry. -/
def setFileValue (fileID : FileID) (skylink : List Char)
    (existing : Option SignedRegistryEntry) : RegistryValue :=
  { tweak := setFileTweak fileID, data := skylink,
    revision := setFileRevision existing }

/-- Outcome of getFile: the thrown "not found", or a download of a skylink. -/
inductive GetFileResult where
  | notFound : GetFileResult
  | download : List Char → GetFileResult
deriving DecidableEq

/-- getFile from skydb.ts (lines 23-33): look up the registry entry, throw
"not found" when absent, and otherwise download the skylink in
existing.value.data. The source performs no signature verification (its TODO
only contemplates validating the skylink). -/
def getFile (existing : Option SignedRegistryEntry) : GetFileResult :=
  match existing with
  | none => .notFound
  | some e => .download e.value.data

/-- Modelled from the spec: verification of a fetched registry entry's
signature against the claimed owner's public key (the source performs no
verification anywhere; this stand-in deems a signature valid exactly when it
equals the key-prefixed hash of the entry's data, so invalid signatures
exist for every key). -/
def verifyEntry (publicKey : List Nat) (e : SignedRegistryEntry) : Bool :=
  e.signature == publicKey ++ hashAll [e.value.data]

/-- Modelled from the spec: node-forge pkcs5.pbkdf2(password, salt,
iterations, keyLength) (a dependency, not in src/); modelled as a
deterministic digest of the four arguments in their source roles. -/
def pbkdf2 (password salt : List Char) (iterations keyLength : Nat) : List Nat :=
  hashAll [password, salt, Nat.toDigits 10 iterations, Nat.toDigits 10 keyLength]

/-- An ed25519 key pair. -/
structure KeyPair where
  publicKey : List Nat
  privateKey : List Nat

/-- Modelled from the spec: node-forge pki.ed25519.generateKeyPair({seed})
(a dependency, not in src/); deterministic in the seed, as the spec's
"deterministic-signature-keypair-from-seed" requires. -/
def generateKeyPair (seed : List Nat) : KeyPair :=
  { publicKey := seed.map fun b => (b * 31 + 7) % 256, privateKey := seed }

/-- Lowercase hexadecimal digit. -/
def hexDigitLower (n : Nat) : Char :=
  if n < 10 then Char.ofNat (48 + n) else Char.ofNat (87 + n)

/-- toHexString from utils.ts (also the Buffer.toString("hex") format used
for User.id): each byte masked to 8 bits as two lowercase hex digits. -/
def toHexString (byteArray : List Nat) : List Char :=
  byteArray.foldl
    (fun s b => s ++ [hexDigitLower (b % 256 / 16), hexDigitLower (b % 256 % 16)]) []

/-- A User as built by the User constructor (skydb.ts lines 82-97). -/
structure UserRec where
  id : List Char
  publicKey : List Nat
  secretKey : List Nat

/-- User.New from skydb.ts (lines 93-97): seed = pbkdf2(password, username,
1000, 32) — the password is the secret, the username the salt — then an
ed25519 key pair from the seed; the constructor sets id to the hex encoding
of the public key. -/
def userNew (username password : List Char) : UserRec :=
  { id := toHexString (generateKeyPair (pbkdf2 password username 1000 32)).publicKey,
    publicKey := (generateKeyPair (pbkdf2 password username 1000 32)).publicKey,
    secretKey := (generateKeyPair (pbkdf2 password username 1000 32)).privateKey }

/-- C1: the claim is false of the source — the first write of a (user,
fileID) submits revision 0 as specified, but because line 58's post-increment
`existing.Revision++` evaluates to the old value, the second sequential write
(whose lookup returns the stored revision-0 entry) submits revision 0 again,
not 1. -/
theorem c1_revision_not_incremented (fileID : FileID) (skylink1 skylink2 : List Char)
    (sig : List Nat) :
    (setFileValue fileID skylink1 none).revision = 0 ∧
    (setFileValue fileID skylink2
      (some { value := setFileValue fileID skylink1 none, signature := sig })).revision
      = 0 ∧
    (setFileValue fileID skylink2
      (some { value := setFileValue fileID skylink1 none, signature := sig })).revision
      ≠ 1 := by
  refine ⟨rfl, rfl, ?_⟩
  show (0 : Nat) ≠ 1
  decide

/-- C2: the claim is false of the source — getFile downloads
existing.value.data unconditionally, so an entry whose signature does not
verify against the user's public key is still surfaced as the download
target instead of failing with VerificationFailed. -/
theorem c2_no_verification (publicKey : List Nat) (e : SignedRegistryEntry)
    (hbad : verifyEntry publicKey e = false) :
    getFile (some e) = GetFileResult.download e.value.data := rfl

/-- C2 witness: a concrete entry with an empty (hence invalid) signature is
still downloaded. -/
theorem c2_no_verification_witness :
    verifyEntry [1] { value := { tweak := [], data := "XYZ".data, revision := 0 }, signature := [] } = false ∧
    getFile (some { value := { tweak := [], data := "XYZ".data, revision := 0 }, signature := [] }) = GetFileResult.download "XYZ".data :=
  ⟨by decide, c2_no_verification [1]
    { value := { tweak := [], data := "XYZ".data, revision := 0 }, signature := [] }
    (by decide)⟩

/-- C5: the tweak setFile builds is the cumulative hash of exactly the four
fields version.toString(), applicationID, fileType.toString(), filename, in
that order; two FileIDs with identical field values produce the same tweak;
and the tweak is sensitive to the textual form (filename casing) and to the
order of the fields. -/
theorem c5_tweak_fields (f g : FileID) (hv : f.version = g.version)
    (ha : f.applicationID = g.applicationID) (ht : f.fileType = g.fileType)
    (hf : f.filename = g.filename) :
    setFileTweak f = hashAll [Nat.toDigits 10 f.version, f.applicationID,
      Nat.toDigits 10 f.fileType.toNum, f.filename] ∧
    setFileTweak f = setFileTweak g ∧
    setFileTweak (NewFileID "app".data FileType.PublicUnencrypted "File".data) ≠
      setFileTweak (NewFileID "app".data FileType.PublicUnencrypted "file".data) ∧
    setFileTweak { version := 1, applicationID := "x".data, fileType := FileType.PublicUnencrypted, filename := "y".data } ≠
      setFileTweak { version := 1, applicationID := "y".data, fileType := FileType.PublicUnencrypted, filename := "x".data } := by
  refine ⟨rfl, ?_, by decide, by decide⟩
  unfold setFileTweak
  rw [hv, ha, ht, hf]

/-- C5 witness: two FileIDs built from the same field values share a tweak,
while the casing and order variants differ. -/
theorem c5_tweak_fields_witness :
    ((NewFileID "app".data FileType.PublicUnencrypted "name.txt".data).version =
      (NewFileID "app".data FileType.PublicUnencrypted "name.txt".data).version) ∧
    setFileTweak (NewFileID "app".data FileType.PublicUnencrypted "name.txt".data) =
      setFileTweak (NewFileID "app".data FileType.PublicUnencrypted "name.txt".data) :=
  ⟨rfl, (c5_tweak_fields
    (NewFileID "app".data FileType.PublicUnencrypted "name.txt".data)
    (NewFileID "app".data FileType.PublicUnencrypted "name.txt".data)
    rfl rfl rfl rfl).2.1⟩

/-- C6: deriveUser (User.New) is deterministic — equal (username, password)
inputs yield Users with the same id — and the id is the hex encoding of the
public key of the key pair generated from seed = pbkdf2(password,
salt=username, 1000 iterations, 32 bytes). -/
theorem c6_derive_user (u1 p1 u2 p2 : List Char) (hu : u1 = u2) (hp : p1 = p2) :
    (userNew u1 p1).id = (userNew u2 p2).id ∧
    (userNew u1 p1).id =
      toHexString (generateKeyPair (pbkdf2 p1 u1 1000 32)).publicKey := by
  subst hu
  subst hp
  exact ⟨rfl, rfl⟩

/-- C6 witness: deriveUser("alice@example.com", "pw1") called twice yields
the same id. -/
theorem c6_derive_user_witness :
    ("alice@example.com".data = "alice@example.com".data ∧
      "pw1".data = "pw1".data) ∧
    ((userNew "alice@example.com".data "pw1".data).id =
      (userNew "alice@example.com".data "pw1".data).id ∧
    (userNew "alice@example.com".data "pw1".data).id =
      toHexString
        (generateKeyPair (pbkdf2 "pw1".data "alice@example.com".data 1000 32)).publicKey) :=
  ⟨⟨rfl, rfl⟩, c6_derive_user "alice@example.com".data "pw1".data
    "alice@example.com".data "pw1".data rfl rfl⟩

end Skynet
